import Mathlib

/-!
Verification of the courierkit scheduling / entitlements toolkit.

The development shallowly embeds the computational core of the repository:

* `packages/availability/src/intervals.ts` — half-open interval arithmetic
  (`mergeIntervals`, `subtractIntervals`, `intersectIntervals`);
* `src/schedule.ts` — schedule expansion (`expandSchedule`) over an abstract
  time-zone database;
* `src/helpers.ts` — recurrence expansion (`expandRecurrence`) and the slot
  pipeline (`getAvailableSlots`);
* `packages/entitlements/src/time.ts`, `limits.ts`, `policy.ts`,
  `entitlements.ts` — window resolution, limit checking, the weighted
  resolver and the `check` query's adapter call.

Instants are modelled as integer milliseconds since the Unix epoch (the value
of a JavaScript `Date`).  The platform pieces the source leans on
(`Intl.DateTimeFormat`, date-fns) are modelled by an abstract offset
database `TzDB`; every general theorem quantifies over all databases, and
concrete evaluations instantiate the zero-offset database `utcTz`.
-/

namespace CK

/-- Milliseconds in one UTC day (UTC days are uniform). -/
def msPerDay : Int := 86400000

/-- A half-open interval `[start, end)` of instants, the value form of the
source's `{ start: Date, end: Date }`. -/
structure Interval where
  start : Int
  «end» : Int
deriving DecidableEq, Repr

/-- Insert into a sorted list, keeping earlier elements first on ties.
Together with `sortLe` this models JavaScript's `Array.prototype.sort`,
which is specified to be a stable sort: for a consistent comparator the
stable sorted output is unique, so any stable sort is a faithful model. -/
def insertLe {α : Type} (le : α → α → Bool) (a : α) : List α → List α
  | [] => [a]
  | b :: bs => if le a b then a :: b :: bs else b :: insertLe le a bs

/-- Stable insertion sort modelling `Array.prototype.sort` (see `insertLe`). -/
def sortLe {α : Type} (le : α → α → Bool) : List α → List α
  | [] => []
  | a :: rest => insertLe le a (sortLe le rest)

/-- Comparator order used by `mergeIntervals`' sort: by start, then by end. -/
def mergeLe (a b : Interval) : Bool :=
  decide (a.start < b.start) || (decide (a.start = b.start) && decide (a.«end» ≤ b.«end»))

/-- Comparator order used by `subtractIntervals`' final sort: by start. -/
def startLe (a b : Interval) : Bool :=
  decide (a.start ≤ b.start)

/-- The sweep loop of `mergeIntervals`: `acc` is the last merged interval;
a next interval starting at or before `acc.end` extends it to the larger
end, otherwise `acc` is emitted and the sweep restarts. -/
def mergeSweep (acc : Interval) : List Interval → List Interval
  | [] => [acc]
  | x :: xs =>
    if x.start ≤ acc.«end» then
      mergeSweep ⟨acc.start, max acc.«end» x.«end»⟩ xs
    else
      acc :: mergeSweep x xs

/-- The valid (non-empty) intervals of a list, as filtered by
`mergeIntervals`. -/
def properFilter (l : List Interval) : List Interval :=
  l.filter fun i => decide (i.start < i.«end»)

/-- `mergeIntervals` from `intervals.ts`: drop empty intervals, sort by
(start, end), sweep merging overlapping or adjacent intervals. -/
def mergeIntervals (intervals : List Interval) : List Interval :=
  match sortLe mergeLe (properFilter intervals) with
  | [] => []
  | x :: xs => mergeSweep x xs

/-- `intervalsOverlap` from `intervals.ts`: strict overlap of half-open
intervals (a shared endpoint is not an overlap). -/
def intervalsOverlap (a b : Interval) : Prop :=
  a.start < b.«end» ∧ b.start < a.«end»

instance (a b : Interval) : Decidable (intervalsOverlap a b) := by
  unfold intervalsOverlap; infer_instance

/-- One step of the inner loop of `subtractIntervals`: subtract `sub` from
the single remaining interval `rem`. -/
def subtractOne (rem sub : Interval) : List Interval :=
  if ¬ intervalsOverlap rem sub then [rem]
  else
    (if rem.start < sub.start then [⟨rem.start, sub.start⟩] else []) ++
    (if sub.«end» < rem.«end» then [⟨sub.«end», rem.«end»⟩] else [])

/-- The per-`from`-interval loop of `subtractIntervals`: successively
subtract each interval of `subs` from the remaining pieces of `i`. -/
def subtractFromInterval (i : Interval) (subs : List Interval) : List Interval :=
  subs.foldl (fun remaining s => remaining.flatMap (fun r => subtractOne r s)) [i]

/-- `subtractIntervals` from `intervals.ts`. -/
def subtractIntervals (fromIntervals subs : List Interval) : List Interval :=
  if fromIntervals.isEmpty then []
  else if subs.isEmpty then mergeIntervals fromIntervals
  else
    let mergedFrom := mergeIntervals fromIntervals
    let mergedSub := mergeIntervals subs
    sortLe startLe (mergedFrom.flatMap (fun i => subtractFromInterval i mergedSub))

/-- The two-pointer walk of `intersectIntervals` over two sorted merged
lists: emit the non-empty pairwise intersection, advance whichever
interval ends first. -/
def interWalk : List Interval → List Interval → List Interval
  | [], _ => []
  | _ :: _, [] => []
  | a :: xs, b :: ys =>
    let s := max a.start b.start
    let e := min a.«end» b.«end»
    (if s < e then [(⟨s, e⟩ : Interval)] else []) ++
      (if a.«end» ≤ b.«end» then interWalk xs (b :: ys) else interWalk (a :: xs) ys)
termination_by l₁ l₂ => l₁.length + l₂.length

/-- `intersectIntervals` from `intervals.ts`. -/
def intersectIntervals (a b : List Interval) : List Interval :=
  if a.isEmpty || b.isEmpty then []
  else interWalk (mergeIntervals a) (mergeIntervals b)

/-- `t` is an instant covered by some interval of `l`. -/
def coversAt (l : List Interval) (t : Int) : Prop :=
  ∃ i ∈ l, i.start ≤ t ∧ t < i.«end»

/-- All intervals of the list are non-empty. -/
def AllProper (l : List Interval) : Prop :=
  ∀ i ∈ l, i.start < i.«end»

/-- The intervals are pairwise strictly separated (disjoint and
non-adjacent), in order. -/
def SepChain (l : List Interval) : Prop :=
  l.Pairwise fun a b => a.«end» < b.start

example : mergeIntervals [⟨10, 12⟩, ⟨11, 13⟩] = [⟨10, 13⟩] := by decide
example : mergeIntervals [⟨5, 6⟩, ⟨1, 2⟩, ⟨2, 3⟩, ⟨9, 9⟩] = [⟨1, 3⟩, ⟨5, 6⟩] := by decide
example : subtractIntervals [⟨8, 17⟩] [⟨12, 13⟩] = [⟨8, 12⟩, ⟨13, 17⟩] := by decide

/-! ### Sorting lemmas for the stable insertion sort -/

theorem insertLe_perm {α : Type} (le : α → α → Bool) (a : α) (l : List α) :
    List.Perm (insertLe le a l) (a :: l) := by
  induction l with
  | nil => rfl
  | cons b bs ih =>
    unfold insertLe
    by_cases h : le a b = true
    · simp [h]
    · simp only [h]
      simp only [Bool.false_eq_true, if_false]
      exact (ih.cons b).trans (List.Perm.swap a b bs)

theorem sortLe_perm {α : Type} (le : α → α → Bool) (l : List α) :
    List.Perm (sortLe le l) l := by
  induction l with
  | nil => rfl
  | cons a rest ih => exact (insertLe_perm le a (sortLe le rest)).trans (ih.cons a)

theorem mem_insertLe {α : Type} {le : α → α → Bool} {a x : α} {l : List α}
    (h : x ∈ insertLe le a l) : x = a ∨ x ∈ l := by
  have := (insertLe_perm le a l).mem_iff.mp h
  simpa using this

theorem insertLe_pairwise {α : Type} {le : α → α → Bool}
    (htot : ∀ a b, le a b = true ∨ le b a = true)
    (htrans : ∀ a b c, le a b = true → le b c = true → le a c = true)
    (a : α) {l : List α} (h : l.Pairwise (le · · = true)) :
    (insertLe le a l).Pairwise (le · · = true) := by
  induction l with
  | nil => simp [insertLe]
  | cons b bs ih =>
    rw [List.pairwise_cons] at h
    obtain ⟨hb, hbs⟩ := h
    unfold insertLe
    by_cases hab : le a b = true
    · simp only [hab, if_true]
      refine List.pairwise_cons.mpr ⟨?_, List.pairwise_cons.mpr ⟨hb, hbs⟩⟩
      intro x hx
      rcases List.mem_cons.mp hx with rfl | hx
      · exact hab
      · exact htrans a b x hab (hb x hx)
    · simp only [hab]
      simp only [Bool.false_eq_true, if_false]
      refine List.pairwise_cons.mpr ⟨?_, ih hbs⟩
      intro x hx
      rcases mem_insertLe hx with rfl | hx
      · rcases htot x b with h' | h'
        · exact absurd h' hab
        · exact h'
      · exact hb x hx

theorem sortLe_pairwise {α : Type} {le : α → α → Bool}
    (htot : ∀ a b, le a b = true ∨ le b a = true)
    (htrans : ∀ a b c, le a b = true → le b c = true → le a c = true)
    (l : List α) : (sortLe le l).Pairwise (le · · = true) := by
  induction l with
  | nil => simp [sortLe]
  | cons a rest ih => exact insertLe_pairwise htot htrans a ih

theorem insertLe_of_head {α : Type} {le : α → α → Bool} {a : α} {l : List α}
    (h : ∀ x ∈ l, le a x = true) : insertLe le a l = a :: l := by
  cases l with
  | nil => rfl
  | cons b bs => simp [insertLe, h b (List.mem_cons_self b bs)]

theorem sortLe_of_sorted {α : Type} {le : α → α → Bool} {l : List α}
    (h : l.Pairwise (le · · = true)) : sortLe le l = l := by
  induction l with
  | nil => rfl
  | cons a rest ih =>
    rw [List.pairwise_cons] at h
    unfold sortLe
    rw [ih h.2, insertLe_of_head h.1]

theorem mergeLe_total (a b : Interval) : mergeLe a b = true ∨ mergeLe b a = true := by
  unfold mergeLe
  by_cases h : a.start < b.start
  · left; simp [h]
  · by_cases h' : b.start < a.start
    · right; simp [h']
    · have he : a.start = b.start := by omega
      by_cases h'' : a.«end» ≤ b.«end»
      · left; simp [he, h'']
      · right
        have : b.«end» ≤ a.«end» := by omega
        simp [he, this]

theorem mergeLe_trans (a b c : Interval) (h₁ : mergeLe a b = true)
    (h₂ : mergeLe b c = true) : mergeLe a c = true := by
  unfold mergeLe at *
  simp only [Bool.or_eq_true, Bool.and_eq_true, decide_eq_true_eq] at *
  omega

theorem mergeLe_start (a b : Interval) (h : mergeLe a b = true) : a.start ≤ b.start := by
  unfold mergeLe at h
  simp only [Bool.or_eq_true, Bool.and_eq_true, decide_eq_true_eq] at h
  omega

theorem startLe_total (a b : Interval) : startLe a b = true ∨ startLe b a = true := by
  unfold startLe
  simp only [decide_eq_true_eq]
  omega

theorem startLe_trans (a b c : Interval) (h₁ : startLe a b = true)
    (h₂ : startLe b c = true) : startLe a c = true := by
  unfold startLe at *
  simp only [decide_eq_true_eq] at *
  omega

/-! ### Sweep lemmas for `mergeIntervals` -/

theorem coversAt_cons {i : Interval} {l : List Interval} {t : Int} :
    coversAt (i :: l) t ↔ (i.start ≤ t ∧ t < i.«end») ∨ coversAt l t := by
  unfold coversAt
  simp

theorem coversAt_perm {l₁ l₂ : List Interval} (h : List.Perm l₁ l₂) (t : Int) :
    coversAt l₁ t ↔ coversAt l₂ t := by
  unfold coversAt
  constructor <;> rintro ⟨i, hm, hi⟩
  · exact ⟨i, h.mem_iff.mp hm, hi⟩
  · exact ⟨i, h.mem_iff.mpr hm, hi⟩

theorem coversAt_properFilter (l : List Interval) (t : Int) :
    coversAt (properFilter l) t ↔ coversAt l t := by
  unfold coversAt properFilter
  constructor <;> rintro ⟨i, hm, hi⟩
  · exact ⟨i, (List.mem_filter.mp hm).1, hi⟩
  · refine ⟨i, List.mem_filter.mpr ⟨hm, ?_⟩, hi⟩
    simp only [decide_eq_true_eq]
    omega

theorem mergeSweep_chain (xs : List Interval) :
    ∀ acc : Interval, acc.start < acc.«end» → AllProper xs →
    (acc :: xs).Pairwise (fun a b => a.start ≤ b.start) →
    SepChain (mergeSweep acc xs) ∧ AllProper (mergeSweep acc xs) ∧
      ∀ j ∈ mergeSweep acc xs, acc.start ≤ j.start := by
  induction xs with
  | nil =>
    intro acc hacc _ _
    unfold mergeSweep
    refine ⟨List.pairwise_singleton _ _, ?_, ?_⟩
    · intro i hi; rw [List.mem_singleton] at hi; subst hi; exact hacc
    · intro j hj; rw [List.mem_singleton] at hj; subst hj; exact le_refl _
  | cons x rest ih =>
    intro acc hacc hproper hsort
    have hx : x.start < x.«end» := hproper x (List.mem_cons_self x rest)
    have hrest : AllProper rest := fun i hi => hproper i (List.mem_cons_of_mem x hi)
    rw [List.pairwise_cons] at hsort
    obtain ⟨haccle, hsort'⟩ := hsort
    have haccx : acc.start ≤ x.start := haccle x (List.mem_cons_self x rest)
    unfold mergeSweep
    by_cases hg : x.start ≤ acc.«end»
    · simp only [hg, if_true]
      have hnacc : (Interval.mk acc.start (max acc.«end» x.«end»)).start <
          (Interval.mk acc.start (max acc.«end» x.«end»)).«end» := by
        simp only
        omega
      have hnsort : ((⟨acc.start, max acc.«end» x.«end»⟩ : Interval) :: rest).Pairwise
          (fun a b => a.start ≤ b.start) := by
        rw [List.pairwise_cons]
        refine ⟨?_, (List.pairwise_cons.mp hsort').2⟩
        intro b hb
        exact haccle b (List.mem_cons_of_mem x hb)
      exact ih _ hnacc hrest hnsort
    · simp only [hg, if_false]
      have hgap : acc.«end» < x.start := by omega
      obtain ⟨hc, hp, hb⟩ := ih x hx hrest hsort'
      refine ⟨?_, ?_, ?_⟩
      · rw [SepChain, List.pairwise_cons]
        exact ⟨fun j hj => lt_of_lt_of_le hgap (hb j hj), hc⟩
      · intro i hi
        rcases List.mem_cons.mp hi with rfl | hi
        · exact hacc
        · exact hp i hi
      · intro j hj
        rcases List.mem_cons.mp hj with rfl | hj
        · exact le_refl _
        · exact le_trans haccx (hb j hj)

theorem mergeSweep_covers (xs : List Interval) :
    ∀ acc : Interval,
    (acc :: xs).Pairwise (fun a b => a.start ≤ b.start) →
    ∀ t : Int, coversAt (mergeSweep acc xs) t ↔ coversAt (acc :: xs) t := by
  induction xs with
  | nil => intro acc _ t; unfold mergeSweep; rfl
  | cons x rest ih =>
    intro acc hsort t
    rw [List.pairwise_cons] at hsort
    obtain ⟨haccle, hsort'⟩ := hsort
    have haccx : acc.start ≤ x.start := haccle x (List.mem_cons_self x rest)
    unfold mergeSweep
    by_cases hg : x.start ≤ acc.«end»
    · simp only [hg, if_true]
      have hnsort : ((⟨acc.start, max acc.«end» x.«end»⟩ : Interval) :: rest).Pairwise
          (fun a b => a.start ≤ b.start) := by
        rw [List.pairwise_cons]
        refine ⟨?_, (List.pairwise_cons.mp hsort').2⟩
        intro b hb
        exact haccle b (List.mem_cons_of_mem x hb)
      rw [ih _ hnsort t, coversAt_cons, coversAt_cons, coversAt_cons]
      constructor
      · rintro (h | h)
        · dsimp only at h
          by_cases ht : t < acc.«end»
          · exact Or.inl ⟨h.1, ht⟩
          · refine Or.inr (Or.inl ⟨?_, ?_⟩) <;> omega
        · exact Or.inr (Or.inr h)
      · rintro (h | h | h)
        · refine Or.inl ⟨h.1, ?_⟩
          dsimp only
          omega
        · refine Or.inl ⟨?_, ?_⟩
          · dsimp only
            omega
          · dsimp only
            omega
        · exact Or.inr h
    · simp only [hg, if_false]
      rw [coversAt_cons, coversAt_cons, ih x hsort' t]

/-! ### Structure of `mergeIntervals` output -/

theorem mergeIntervals_sorted_chain (l : List Interval) :
    SepChain (mergeIntervals l) ∧ AllProper (mergeIntervals l) := by
  unfold mergeIntervals
  cases e : sortLe mergeLe (properFilter l) with
  | nil => exact ⟨List.Pairwise.nil, fun i hi => absurd hi (List.not_mem_nil i)⟩
  | cons x xs =>
    have hperm : List.Perm (sortLe mergeLe (properFilter l)) (properFilter l) :=
      sortLe_perm mergeLe (properFilter l)
    rw [e] at hperm
    have hproper : AllProper (x :: xs) := by
      intro i hi
      have : i ∈ properFilter l := hperm.mem_iff.mp hi
      have := (List.mem_filter.mp this).2
      simpa using this
    have hsorted : (x :: xs).Pairwise (fun a b => a.start ≤ b.start) := by
      have := sortLe_pairwise mergeLe_total mergeLe_trans (properFilter l)
      rw [e] at this
      exact this.imp (fun h => mergeLe_start _ _ h)
    obtain ⟨hc, hp, _⟩ := mergeSweep_chain xs x
      (hproper x (List.mem_cons_self x xs))
      (fun i hi => hproper i (List.mem_cons_of_mem x hi)) hsorted
    exact ⟨hc, hp⟩

theorem mergeIntervals_covers (l : List Interval) (t : Int) :
    coversAt (mergeIntervals l) t ↔ coversAt (properFilter l) t := by
  unfold mergeIntervals
  cases e : sortLe mergeLe (properFilter l) with
  | nil =>
    have hperm : List.Perm (sortLe mergeLe (properFilter l)) (properFilter l) :=
      sortLe_perm mergeLe (properFilter l)
    rw [e] at hperm
    exact coversAt_perm hperm t
  | cons x xs =>
    have hperm : List.Perm (sortLe mergeLe (properFilter l)) (properFilter l) :=
      sortLe_perm mergeLe (properFilter l)
    rw [e] at hperm
    have hsorted : (x :: xs).Pairwise (fun a b => a.start ≤ b.start) := by
      have := sortLe_pairwise mergeLe_total mergeLe_trans (properFilter l)
      rw [e] at this
      exact this.imp (fun h => mergeLe_start _ _ h)
    exact (mergeSweep_covers xs x hsorted t).trans (coversAt_perm hperm t)

/-! ### Identity of the operations on already-normalised input -/

theorem properFilter_eq_self {l : List Interval} (h : AllProper l) :
    properFilter l = l := by
  unfold properFilter
  apply List.filter_eq_self.mpr
  intro a ha
  simpa using h a ha

theorem chain_pairwise_mergeLe {l : List Interval} (hc : SepChain l) (hp : AllProper l) :
    l.Pairwise (mergeLe · · = true) := by
  unfold SepChain at hc
  refine List.Pairwise.imp_of_mem ?_ hc
  intro a b ha _ hr
  have := hp a ha
  simp only [mergeLe, Bool.or_eq_true, Bool.and_eq_true, decide_eq_true_eq]
  omega

theorem mergeSweep_of_chain {x : Interval} {xs : List Interval} (h : SepChain (x :: xs)) :
    mergeSweep x xs = x :: xs := by
  induction xs generalizing x with
  | nil => rfl
  | cons y rest ih =>
    unfold SepChain at h
    rw [List.pairwise_cons] at h
    have hxy : x.«end» < y.start := h.1 y (List.mem_cons_self y rest)
    unfold mergeSweep
    have hng : ¬ (y.start ≤ x.«end») := by omega
    simp only [hng, if_false]
    rw [ih h.2]

theorem mergeIntervals_of_chain {l : List Interval} (hc : SepChain l) (hp : AllProper l) :
    mergeIntervals l = l := by
  unfold mergeIntervals
  rw [properFilter_eq_self hp, sortLe_of_sorted (chain_pairwise_mergeLe hc hp)]
  cases l with
  | nil => rfl
  | cons x xs => exact mergeSweep_of_chain hc

theorem interWalk_nil (ys : List Interval) : interWalk [] ys = [] := by
  rw [interWalk]

theorem interWalk_self_step {x c : Interval} {cs : List Interval}
    (_hxp : x.start < x.«end») (hcp : c.start < c.«end») (hxc : x.«end» < c.start) :
    interWalk (c :: cs) (x :: c :: cs) = interWalk (c :: cs) (c :: cs) := by
  rw [interWalk]
  have h₁ : ¬ (max c.start x.start < min c.«end» x.«end») := by
    simp only [lt_min_iff, max_lt_iff]
    omega
  have h₂ : ¬ (c.«end» ≤ x.«end») := by omega
  simp only [h₁, h₂, if_false, List.nil_append]

theorem interWalk_self {l : List Interval} (hc : SepChain l) (hp : AllProper l) :
    interWalk l l = l := by
  induction l with
  | nil => exact interWalk_nil []
  | cons x xs ih =>
    have hx : x.start < x.«end» := hp x (List.mem_cons_self x xs)
    unfold SepChain at hc
    rw [List.pairwise_cons] at hc
    rw [interWalk]
    have h₁ : max x.start x.start < min x.«end» x.«end» := by
      simp only [max_self, min_self]
      exact hx
    have h₂ : x.«end» ≤ x.«end» := le_refl _
    simp only [h₁, h₂, if_true]
    have hstep : interWalk xs (x :: xs) = interWalk xs xs := by
      cases xs with
      | nil => rw [interWalk_nil, interWalk_nil]
      | cons c cs =>
        exact interWalk_self_step hx (hp c (by simp)) (hc.1 c (List.mem_cons_self c cs))
    rw [hstep, ih hc.2 (fun i hi => hp i (List.mem_cons_of_mem x hi))]
    simp only [max_self, min_self, List.singleton_append]

/-- C3: for every input list, `mergeIntervals` returns a list sorted
strictly ascending by start whose elements are pairwise disjoint and
non-adjacent, covering exactly the instants covered by the non-empty
intervals of the input. -/
theorem mergeIntervals_normalises (X : List Interval) :
    (mergeIntervals X).Pairwise (fun a b => a.start < b.start) ∧
    (mergeIntervals X).Pairwise (fun a b => a.«end» < b.start) ∧
    ∀ t : Int, coversAt (mergeIntervals X) t ↔ coversAt (properFilter X) t := by
  obtain ⟨hc, hp⟩ := mergeIntervals_sorted_chain X
  refine ⟨?_, hc, fun t => mergeIntervals_covers X t⟩
  unfold SepChain at hc
  refine List.Pairwise.imp_of_mem ?_ hc
  intro a b ha _ hr
  exact lt_trans (hp a ha) hr

/-- C8: the three interval operations are stable under idempotence:
merging twice equals merging once, subtracting nothing merges, and
self-intersection merges. -/
theorem interval_ops_idempotent (X : List Interval) :
    mergeIntervals (mergeIntervals X) = mergeIntervals X ∧
    subtractIntervals X [] = mergeIntervals X ∧
    intersectIntervals X X = mergeIntervals X := by
  obtain ⟨hc, hp⟩ := mergeIntervals_sorted_chain X
  refine ⟨mergeIntervals_of_chain hc hp, ?_, ?_⟩
  · cases X with
    | nil => rfl
    | cons x xs => simp [subtractIntervals]
  · unfold intersectIntervals
    cases X with
    | nil => rfl
    | cons x xs =>
      simp only [List.isEmpty_cons, Bool.or_self, Bool.false_eq_true, if_false]
      exact interWalk_self hc hp

/-! ### Structure of `subtractIntervals` output -/

theorem subtractOne_pieces {rem sub : Interval} (hrem : rem.start < rem.«end»)
    (hsub : sub.start < sub.«end») :
    SepChain (subtractOne rem sub) ∧ AllProper (subtractOne rem sub) ∧
      ∀ p ∈ subtractOne rem sub, rem.start ≤ p.start ∧ p.«end» ≤ rem.«end» := by
  unfold subtractOne
  by_cases hov : intervalsOverlap rem sub
  · have hov' : rem.start < sub.«end» ∧ sub.start < rem.«end» := hov
    simp only [hov, not_true_eq_false, if_false]
    by_cases h₁ : rem.start < sub.start <;> by_cases h₂ : sub.«end» < rem.«end» <;>
        simp only [h₁, h₂, if_true, if_false, List.singleton_append, List.nil_append,
          List.append_nil]
    · refine ⟨?_, ?_, ?_⟩
      · refine List.Pairwise.cons ?_ (List.pairwise_singleton _ _)
        intro b hb
        rw [List.mem_singleton] at hb
        subst hb
        dsimp only
        omega
      · intro p hp
        rcases List.mem_cons.mp hp with rfl | hp
        · dsimp only; omega
        · rw [List.mem_singleton] at hp
          subst hp
          dsimp only; omega
      · intro p hp
        rcases List.mem_cons.mp hp with rfl | hp
        · dsimp only; omega
        · rw [List.mem_singleton] at hp
          subst hp
          dsimp only
          omega
    · refine ⟨List.pairwise_singleton _ _, ?_, ?_⟩ <;>
        · intro p hp
          rw [List.mem_singleton] at hp
          subst hp
          dsimp only
          omega
    · refine ⟨List.pairwise_singleton _ _, ?_, ?_⟩ <;>
        · intro p hp
          rw [List.mem_singleton] at hp
          subst hp
          dsimp only
          omega
    · exact ⟨List.Pairwise.nil, fun p hp => absurd hp (List.not_mem_nil p),
        fun p hp => absurd hp (List.not_mem_nil p)⟩
  · simp only [hov, not_false_iff, if_true]
    refine ⟨List.pairwise_singleton _ _, ?_, ?_⟩ <;>
      · intro p hp
        rw [List.mem_singleton] at hp
        subst hp
        first
          | exact hrem
          | exact ⟨le_refl _, le_refl _⟩

theorem sepChain_flatMap {l : List Interval} {f : Interval → List Interval}
    (hc : SepChain l)
    (hf : ∀ r ∈ l, SepChain (f r) ∧ ∀ p ∈ f r, r.start ≤ p.start ∧ p.«end» ≤ r.«end») :
    SepChain (l.flatMap f) := by
  induction l with
  | nil => exact List.Pairwise.nil
  | cons r rest ih =>
    unfold SepChain at *
    rw [List.pairwise_cons] at hc
    rw [List.flatMap_cons, List.pairwise_append]
    refine ⟨(hf r (List.mem_cons_self r rest)).1, ?_, ?_⟩
    · exact ih hc.2 (fun r' hr' => hf r' (List.mem_cons_of_mem r hr'))
    · intro p hp q hq
      obtain ⟨r', hr', hq'⟩ := List.mem_flatMap.mp hq
      have hpr : p.«end» ≤ r.«end» := ((hf r (List.mem_cons_self r rest)).2 p hp).2
      have hqr : r'.start ≤ q.start :=
        ((hf r' (List.mem_cons_of_mem r hr')).2 q hq').1
      have : r.«end» < r'.start := hc.1 r' hr'
      omega

theorem subtractStep_inv {lo hi : Int} {rems : List Interval} {s : Interval}
    (hs : s.start < s.«end»)
    (hch : SepChain rems) (hpr : AllProper rems)
    (hbd : ∀ p ∈ rems, lo ≤ p.start ∧ p.«end» ≤ hi) :
    SepChain (rems.flatMap (fun r => subtractOne r s)) ∧
    AllProper (rems.flatMap (fun r => subtractOne r s)) ∧
    ∀ p ∈ rems.flatMap (fun r => subtractOne r s), lo ≤ p.start ∧ p.«end» ≤ hi := by
  refine ⟨?_, ?_, ?_⟩
  · refine sepChain_flatMap hch ?_
    intro r hr
    obtain ⟨h₁, _, h₃⟩ := subtractOne_pieces (hpr r hr) hs
    exact ⟨h₁, h₃⟩
  · intro p hp
    obtain ⟨r, hr, hp'⟩ := List.mem_flatMap.mp hp
    exact (subtractOne_pieces (hpr r hr) hs).2.1 p hp'
  · intro p hp
    obtain ⟨r, hr, hp'⟩ := List.mem_flatMap.mp hp
    have h₃ := ((subtractOne_pieces (hpr r hr) hs).2.2 p hp')
    have := hbd r hr
    exact ⟨le_trans this.1 h₃.1, le_trans h₃.2 this.2⟩

theorem subtractFold_inv {lo hi : Int} (subs : List Interval) (hsubs : AllProper subs) :
    ∀ rems : List Interval, SepChain rems → AllProper rems →
    (∀ p ∈ rems, lo ≤ p.start ∧ p.«end» ≤ hi) →
    SepChain (subs.foldl (fun remaining s => remaining.flatMap (fun r => subtractOne r s)) rems) ∧
    AllProper (subs.foldl (fun remaining s => remaining.flatMap (fun r => subtractOne r s)) rems) ∧
    ∀ p ∈ subs.foldl (fun remaining s => remaining.flatMap (fun r => subtractOne r s)) rems,
      lo ≤ p.start ∧ p.«end» ≤ hi := by
  induction subs with
  | nil => intro rems h₁ h₂ h₃; exact ⟨h₁, h₂, h₃⟩
  | cons s rest ih =>
    intro rems h₁ h₂ h₃
    rw [List.foldl_cons]
    have hs : s.start < s.«end» := hsubs s (List.mem_cons_self s rest)
    obtain ⟨k₁, k₂, k₃⟩ := subtractStep_inv hs h₁ h₂ h₃
    exact ih (fun i hi => hsubs i (List.mem_cons_of_mem s hi)) _ k₁ k₂ k₃

theorem subtractFromInterval_inv {i : Interval} {subs : List Interval}
    (hi : i.start < i.«end») (hsubs : AllProper subs) :
    SepChain (subtractFromInterval i subs) ∧ AllProper (subtractFromInterval i subs) ∧
    ∀ p ∈ subtractFromInterval i subs, i.start ≤ p.start ∧ p.«end» ≤ i.«end» := by
  unfold subtractFromInterval
  refine subtractFold_inv subs hsubs [i] ?_ ?_ ?_
  · exact List.pairwise_singleton _ _
  · intro p hp
    rw [List.mem_singleton] at hp
    subst hp
    exact hi
  · intro p hp
    rw [List.mem_singleton] at hp
    subst hp
    exact ⟨le_refl _, le_refl _⟩

theorem chain_pairwise_startLe {l : List Interval} (hc : SepChain l) (hp : AllProper l) :
    l.Pairwise (startLe · · = true) := by
  unfold SepChain at hc
  refine List.Pairwise.imp_of_mem ?_ hc
  intro a b ha _ hr
  have := hp a ha
  simp only [startLe, decide_eq_true_eq]
  omega

theorem subtractIntervals_sorted_chain (A B : List Interval) :
    SepChain (subtractIntervals A B) ∧ AllProper (subtractIntervals A B) := by
  unfold subtractIntervals
  by_cases hA : A.isEmpty
  · simp only [hA, if_true]
    exact ⟨List.Pairwise.nil, fun i hi => absurd hi (List.not_mem_nil i)⟩
  · simp only [hA, if_false]
    by_cases hB : B.isEmpty
    · simp only [hB, if_true]
      exact mergeIntervals_sorted_chain A
    · simp only [hB, if_false]
      obtain ⟨hcA, hpA⟩ := mergeIntervals_sorted_chain A
      obtain ⟨hcB, hpB⟩ := mergeIntervals_sorted_chain B
      have hpieces :
          SepChain ((mergeIntervals A).flatMap
            (fun i => subtractFromInterval i (mergeIntervals B))) ∧
          AllProper ((mergeIntervals A).flatMap
            (fun i => subtractFromInterval i (mergeIntervals B))) := by
        constructor
        · refine sepChain_flatMap hcA ?_
          intro r hr
          obtain ⟨h₁, _, h₃⟩ := subtractFromInterval_inv (hpA r hr) hpB
          exact ⟨h₁, h₃⟩
        · intro p hp
          obtain ⟨r, hr, hp'⟩ := List.mem_flatMap.mp hp
          exact (subtractFromInterval_inv (hpA r hr) hpB).2.1 p hp'
      rw [sortLe_of_sorted (chain_pairwise_startLe hpieces.1 hpieces.2)]
      exact hpieces

/-! ### Civil date arithmetic (the proleptic Gregorian calendar used by
JavaScript `Date` and `Intl`) -/

/-- A civil calendar date, the `year/month/day` fields of a formatted date. -/
structure CivilDate where
  year : Int
  month : Int
  day : Int
deriving DecidableEq, Repr

/-- Civil fields of a wall-clock datetime at second precision, as produced
by an `Intl.DateTimeFormat` with numeric year … second parts. -/
structure Civil where
  year : Int
  month : Int
  day : Int
  hour : Int
  minute : Int
  second : Int
deriving DecidableEq, Repr

/-- Day index (days since 1970-01-01) of the civil date `y-m-d`, for any
year and month 1..12 (Howard Hinnant's `days_from_civil`); `d` may be out
of range, shifting the result linearly exactly as JavaScript date
normalisation does. -/
def daysFromCivil (y m d : Int) : Int :=
  let y' := if m ≤ 2 then y - 1 else y
  let era := y'.ediv 400
  let yoe := y' - era * 400
  let mp := if 2 < m then m - 3 else m + 9
  let doy := (153 * mp + 2).ediv 5 + d - 1
  let doe := yoe * 365 + yoe.ediv 4 - yoe.ediv 100 + doy
  era * 146097 + doe - 719468

/-- Civil date of a day index (Howard Hinnant's `civil_from_days`). -/
def civilFromDays (z : Int) : CivilDate :=
  let z' := z + 719468
  let era := z'.ediv 146097
  let doe := z' - era * 146097
  let yoe := (doe - doe.ediv 1460 + doe.ediv 36524 - doe.ediv 146096).ediv 365
  let y := yoe + era * 400
  let doy := doe - (365 * yoe + yoe.ediv 4 - yoe.ediv 100)
  let mp := (5 * doy + 2).ediv 153
  let d := doy - (153 * mp + 2).ediv 5 + 1
  let m := if mp < 10 then mp + 3 else mp - 9
  ⟨if m ≤ 2 then y + 1 else y, m, d⟩

/-- Day index containing instant `t` (`ediv` floors, so this is correct
for instants before the epoch as well). -/
def dayNumber (t : Int) : Int := t.ediv msPerDay

/-- `Date.prototype.setUTCHours(0,0,0,0)`: floor an instant to its UTC day. -/
def dayFloor (t : Int) : Int := dayNumber t * msPerDay

/-- `Date.prototype.getUTCDay()`: 0 = Sunday … 6 = Saturday.  Day index 0
(1970-01-01) was a Thursday (= 4). -/
def dayOfWeekNum (days : Int) : Int := (days + 4) % 7

/-- `Date.UTC(y, m-1, d, h, mi, s)`: month is normalised into the year
exactly as JavaScript does; the remaining fields shift linearly. -/
def dateUTC (y m d h mi s : Int) : Int :=
  let m0 := m - 1
  let y' := y + m0.ediv 12
  let m' := m0 % 12 + 1
  daysFromCivil y' m' d * msPerDay + h * 3600000 + mi * 60000 + s * 1000

/-- An abstract IANA time-zone database: `tz zone t` is the zone's UTC
offset in milliseconds at the UTC instant `t` (wall-clock = `t + offset`).
This models the platform's `Intl.DateTimeFormat` zone data, which the
source consults; general theorems hold for every database. -/
def TzDB : Type := String → Int → Int

/-- The zero-offset database: every zone behaves like UTC.  Used to
evaluate the embedding on concrete inputs. -/
def utcTz : TzDB := fun _ _ => 0

/-- The wall-clock milliseconds shown for UTC instant `t` in `zone`. -/
def wallClock (tz : TzDB) (zone : String) (t : Int) : Int := t + tz zone t

/-- Second-precision wall-clock fields of `t` in `zone` — the output of the
source's `Intl.DateTimeFormat(…, { hour12: false })` formatters. -/
def intlCivil (tz : TzDB) (zone : String) (t : Int) : Civil :=
  let w := wallClock tz zone t
  let c := civilFromDays (dayNumber w)
  let r := w % msPerDay
  ⟨c.year, c.month, c.day, r.ediv 3600000, (r % 3600000).ediv 60000, (r % 60000).ediv 1000⟩

/-- The `YYYY-MM-DD` date parts of `t` in `zone` — the source's `en-CA`
formatter (`getDateStringInTimezone`); comparing the padded strings is
comparing these triples lexicographically. -/
def intlDate (tz : TzDB) (zone : String) (t : Int) : CivilDate :=
  civilFromDays (dayNumber (wallClock tz zone t))

/-- Lexicographic order on formatted `YYYY-MM-DD` strings. -/
def civilDateLt (a b : CivilDate) : Prop :=
  a.year < b.year ∨ (a.year = b.year ∧
    (a.month < b.month ∨ (a.month = b.month ∧ a.day < b.day)))

instance (a b : CivilDate) : Decidable (civilDateLt a b) := by
  unfold civilDateLt; infer_instance

/-- The days of the week, as in `types.ts`. -/
inductive DayOfWeek where
  | sunday | monday | tuesday | wednesday | thursday | friday | saturday
deriving DecidableEq, Repr

/-- `NUMBER_TO_DAY` indexing by `getDay()`. -/
def numberToDay (n : Int) : DayOfWeek :=
  if n = 0 then .sunday
  else if n = 1 then .monday
  else if n = 2 then .tuesday
  else if n = 3 then .wednesday
  else if n = 4 then .thursday
  else if n = 5 then .friday
  else .saturday

/-- `getDayOfWeekInTimezone` from `schedule.ts`/`helpers.ts`: the weekday
name of `t`'s wall-clock date in `zone` (the `Intl` weekday formatter is
consistent with the date-part formatter by construction). -/
def getDayOfWeekInTimezone (tz : TzDB) (t : Int) (zone : String) : DayOfWeek :=
  numberToDay (dayOfWeekNum (dayNumber (wallClock tz zone t)))

/-- A local `HH:MM` time, already split at the `:` as the source does. -/
structure LocalTime where
  hours : Int
  minutes : Int
deriving DecidableEq, Repr

/-- `Date.UTC` applied to the fields of a `Civil` value. -/
def civilToMillis (c : Civil) : Int :=
  dateUTC c.year c.month c.day c.hour c.minute c.second

/-- `getTimezoneOffset` from `schedule.ts`: format the UTC instant in the
zone (second precision), reinterpret the fields as UTC, subtract. -/
def getTimezoneOffset (tz : TzDB) (utcDate : Int) (zone : String) : Int :=
  civilToMillis (intlCivil tz zone utcDate) - utcDate

/-- `localTimeToUTC` from `schedule.ts`: offset-then-verify conversion of a
local time on `date`'s day (in `zone`) to a UTC instant. -/
def localTimeToUTC (tz : TzDB) (date : Int) (time : LocalTime) (zone : String) : Int :=
  let ds := intlDate tz zone date
  let rough := dateUTC ds.year ds.month ds.day time.hours time.minutes 0
  let offset := getTimezoneOffset tz rough zone
  let utc := rough - offset
  let verify := getTimezoneOffset tz utc zone
  if verify ≠ offset then rough - verify else utc

/-- A date given either as a `YYYY-MM-DD` string or as an instant
(`string | Date` in the source). -/
inductive DateSpec where
  | ymd (y m d : Int)
  | instant (ms : Int)
deriving DecidableEq, Repr

/-- `normalizeDate` from `schedule.ts`: a date string parses as UTC
midnight of that civil day. -/
def normalizeDate : DateSpec → Int
  | .ymd y m d => dateUTC y m d 0 0 0
  | .instant ms => ms

/-- `ScheduleRule` from `types.ts`. -/
structure ScheduleRule where
  days : List DayOfWeek
  startTime : LocalTime
  endTime : LocalTime
  timezone : String
  effectiveFrom : Option DateSpec
  effectiveUntil : Option DateSpec
deriving DecidableEq, Repr

/-- `ScheduleOverride` from `types.ts`. -/
structure ScheduleOverride where
  date : DateSpec
  available : Bool
  startTime : Option LocalTime
  endTime : Option LocalTime
deriving DecidableEq, Repr

/-- `Schedule` from `types.ts` (absent `overrides` is modelled as the
empty list, over which the source's loop does nothing). -/
structure Schedule where
  id : String
  rules : List ScheduleRule
  overrides : List ScheduleOverride
deriving DecidableEq, Repr

/-- `DateRange` from `types.ts`. -/
structure DateRange where
  start : Int
  «end» : Int
deriving DecidableEq, Repr

/-- `isRuleEffective` from `schedule.ts`: date-string comparison in the
rule's zone against `effectiveFrom` (inclusive) / `effectiveUntil`
(exclusive). -/
def isRuleEffective (tz : TzDB) (rule : ScheduleRule) (date : Int) : Bool :=
  let okFrom :=
    match rule.effectiveFrom with
    | none => true
    | some f =>
      ! decide (civilDateLt (intlDate tz rule.timezone date)
          (intlDate tz rule.timezone (normalizeDate f)))
  let okUntil :=
    match rule.effectiveUntil with
    | none => true
    | some u =>
      decide (civilDateLt (intlDate tz rule.timezone date)
          (intlDate tz rule.timezone (normalizeDate u)))
  okFrom && okUntil

/-- `doesOverrideApply` from `schedule.ts`: same formatted date in the
schedule's primary zone. -/
def doesOverrideApply (tz : TzDB) (o : ScheduleOverride) (date : Int) (zone : String) : Bool :=
  intlDate tz zone (normalizeDate o.date) == intlDate tz zone date

/-- `generateIntervalFromRule` from `schedule.ts`. -/
def generateIntervalFromRule (tz : TzDB) (rule : ScheduleRule) (date : Int) : Interval :=
  ⟨localTimeToUTC tz date rule.startTime rule.timezone,
   localTimeToUTC tz date rule.endTime rule.timezone⟩

/-- The iteration of `iterateDays`: UTC midnights from `current` while
below `endT`. -/
def iterateDaysFrom (current endT : Int) : List Int :=
  if current < endT then current :: iterateDaysFrom (current + msPerDay) endT else []
termination_by (endT - current).toNat
decreasing_by
  simp only [msPerDay]
  omega

/-- `iterateDays` from `schedule.ts`: each UTC day touching the range. -/
def iterateDays (range : DateRange) : List Int :=
  iterateDaysFrom (dayFloor range.start) range.«end»

/-- The rule intervals contributed for one day of the range. -/
def ruleIntervalsForDay (tz : TzDB) (schedule : Schedule) (day : Int) : List Interval :=
  schedule.rules.flatMap fun rule =>
    if rule.days.contains (getDayOfWeekInTimezone tz day rule.timezone) then
      if isRuleEffective tz rule day then
        let interval := generateIntervalFromRule tz rule day
        if interval.start < interval.«end» then [interval] else []
      else []
    else []

/-- The subtraction intervals contributed by overrides for one day. -/
def overrideRemovalsForDay (tz : TzDB) (schedule : Schedule) (zone : String)
    (day : Int) : List Interval :=
  schedule.overrides.flatMap fun o =>
    if doesOverrideApply tz o day zone then
      if o.available = false then
        match o.startTime, o.endTime with
        | some st, some et =>
          [⟨localTimeToUTC tz day st zone, localTimeToUTC tz day et zone⟩]
        | _, _ => [⟨dayFloor day, dayFloor (day + msPerDay)⟩]
      else []
    else []

/-- The addition intervals contributed by overrides for one day. -/
def overrideAdditionsForDay (tz : TzDB) (schedule : Schedule) (zone : String)
    (day : Int) : List Interval :=
  schedule.overrides.flatMap fun o =>
    if doesOverrideApply tz o day zone then
      if o.available = false then []
      else
        match o.startTime, o.endTime with
        | some st, some et =>
          let addStart := localTimeToUTC tz day st zone
          let addEnd := localTimeToUTC tz day et zone
          if addStart < addEnd then [⟨addStart, addEnd⟩] else []
        | _, _ => []
    else []

/-- The final clip of `expandSchedule`: intersect each interval with the
query range and drop empties. -/
def clipToRange (range : DateRange) (l : List Interval) : List Interval :=
  (l.map fun i => (⟨max i.start range.start, min i.«end» range.«end»⟩ : Interval)).filter
    fun i => decide (i.start < i.«end»)

/-- The pre-clip combination step of `expandSchedule`: per-day rule
intervals, merged, minus removal overrides, plus addition overrides. -/
def expandScheduleCore (tz : TzDB) (schedule : Schedule) (range : DateRange) : List Interval :=
  let defaultTimezone :=
    match schedule.rules with
    | [] => "UTC"
    | r :: _ => r.timezone
  let days := iterateDays range
  let intervals := days.flatMap (ruleIntervalsForDay tz schedule)
  let overridesToRemove := days.flatMap (overrideRemovalsForDay tz schedule defaultTimezone)
  let overridesToAdd := days.flatMap (overrideAdditionsForDay tz schedule defaultTimezone)
  let result := mergeIntervals intervals
  let result :=
    if overridesToRemove.isEmpty then result
    else subtractIntervals result overridesToRemove
  if overridesToAdd.isEmpty then result
  else mergeIntervals (result ++ overridesToAdd)

/-- `expandSchedule` from `schedule.ts`: the combined availability clipped
to the query range. -/
def expandSchedule (tz : TzDB) (schedule : Schedule) (range : DateRange) : List Interval :=
  clipToRange range (expandScheduleCore tz schedule range)

example : dateUTC 2024 1 1 0 0 0 = 1704067200000 := by decide
example : dateUTC 9999 12 31 23 59 59 + 999 = 253402300799999 := by decide
example : civilFromDays (dayNumber 1704067200000) = ⟨2024, 1, 1⟩ := by decide
example : dayOfWeekNum (dayNumber (dateUTC 2024 1 1 0 0 0)) = 1 := by decide
example : dayOfWeekNum (dayNumber (dateUTC 2020 12 28 0 0 0)) = 1 := by decide

/-! ### C10: structure of `expandSchedule` output -/

theorem clipToRange_chain (range : DateRange) {l : List Interval}
    (hc : SepChain l) :
    SepChain (clipToRange range l) ∧ AllProper (clipToRange range l) := by
  constructor
  · unfold clipToRange SepChain
    apply List.Pairwise.filter
    rw [List.pairwise_map]
    unfold SepChain at hc
    refine List.Pairwise.imp ?_ hc
    intro a b hab
    dsimp only
    omega
  · intro i hi
    unfold clipToRange at hi
    have := (List.mem_filter.mp hi).2
    simpa using this

theorem expandScheduleCore_chain (tz : TzDB) (schedule : Schedule) (range : DateRange) :
    SepChain (expandScheduleCore tz schedule range) ∧
      AllProper (expandScheduleCore tz schedule range) := by
  unfold expandScheduleCore
  dsimp only
  split
  · split
    · exact mergeIntervals_sorted_chain _
    · exact subtractIntervals_sorted_chain _ _
  · exact mergeIntervals_sorted_chain _

/-- C10: for every schedule and query range (and every zone database),
the interval list returned by `expandSchedule` is sorted ascending by
start and pairwise disjoint. -/
theorem expandSchedule_sorted_disjoint (tz : TzDB) (schedule : Schedule) (range : DateRange) :
    (expandSchedule tz schedule range).Pairwise (fun a b => a.start < b.start) ∧
    (expandSchedule tz schedule range).Pairwise (fun a b => a.«end» ≤ b.start) := by
  obtain ⟨hc, hp⟩ := clipToRange_chain range
    (expandScheduleCore_chain tz schedule range).1
  unfold expandSchedule at *
  unfold SepChain at hc
  constructor
  · refine List.Pairwise.imp_of_mem ?_ hc
    intro a b ha _ hab
    exact lt_trans (hp a ha) hab
  · exact hc.imp (fun h => le_of_lt h)

/-! ### The slot pipeline (`src/slots.ts` part of `helpers.ts`) -/

/-- `getISOWeek` from the slots module (identical code also appears as
`getWeekNumber` in the recurrence helpers): ISO-8601 week number via the
nearest-Thursday rule, computed on UTC fields. -/
def getISOWeek (t : Int) : Int :=
  let d := dayNumber t
  let w := dayOfWeekNum d
  let dayNum := if w = 0 then 7 else w
  let dThu := d + 4 - dayNum
  let yearStart := daysFromCivil (civilFromDays dThu).year 1 1
  (dThu - yearStart + 1 + 6).ediv 7

/-- `getISOWeekYear` from the slots module: the calendar year of the
nearest Thursday. -/
def getISOWeekYear (t : Int) : Int :=
  let d := dayNumber t
  let w := dayOfWeekNum d
  let dayNum := if w = 0 then 7 else w
  (civilFromDays (d + 4 - dayNum)).year

/-- `getDateKey`: the UTC `YYYY-MM-DD` of an instant, as the civil-date
triple (the string key is injective in the triple). -/
def getDateKey (t : Int) : CivilDate :=
  civilFromDays (dayNumber t)

/-- `getWeekKey`: the `YYYY-Www` pair (ISO week-year, ISO week); the
string key is injective in the pair. -/
def getWeekKey (t : Int) : Int × Int :=
  (getISOWeekYear t, getISOWeek t)

/-- The per-host override fields of an event type
(`Partial<Omit<EventType, 'id' | 'hostOverrides'>>`). -/
structure EventTypeOverride where
  length : Option Int
  scheduleKey : Option String
  bufferBefore : Option Int
  bufferAfter : Option Int
  slotInterval : Option Int
  minimumNotice : Option Int
  maximumLeadTime : Option Int
  maxPerDay : Option Int
  maxPerWeek : Option Int
deriving DecidableEq, Repr

/-- `EventType` from `types.ts`. -/
structure EventType where
  id : String
  length : Int
  scheduleKey : Option String
  bufferBefore : Option Int
  bufferAfter : Option Int
  slotInterval : Option Int
  minimumNotice : Option Int
  maximumLeadTime : Option Int
  maxPerDay : Option Int
  maxPerWeek : Option Int
  hostOverrides : List (String × EventTypeOverride)
deriving DecidableEq, Repr

/-- `Booking` from `types.ts`. -/
structure Booking where
  id : Option String
  hostId : String
  start : Int
  «end» : Int
  eventTypeId : Option String
deriving DecidableEq, Repr

/-- `Block` from `types.ts`. -/
structure Block where
  hostId : String
  start : Int
  «end» : Int
deriving DecidableEq, Repr

/-- `Slot` from `types.ts`. -/
structure Slot where
  hostId : String
  start : Int
  «end» : Int
  bufferBefore : Option Interval
  bufferAfter : Option Interval
deriving DecidableEq, Repr

/-- `HostSchedules` from `types.ts` (the schedules record as an
association list). -/
structure HostSchedules where
  hostId : String
  schedules : List (String × Schedule)
deriving DecidableEq, Repr

/-- Per-event-type buffer configuration (`EventTypeBufferConfig`). -/
structure EventTypeBufferConfig where
  bufferBefore : Option Int
  bufferAfter : Option Int
deriving DecidableEq, Repr

/-- `GetAvailableSlotsInput` (with the optional `eventTypes` buffer
table keyed by event-type id; absent `blocks` is the empty list). -/
structure GetAvailableSlotsInput where
  eventType : EventType
  hosts : List HostSchedules
  bookings : List Booking
  blocks : List Block
  range : DateRange
  eventTypes : Option (List (String × EventTypeBufferConfig))
deriving DecidableEq, Repr

/-- `resolveHostConfig` from the slots module: spread the host override
over the event type; a field absent from the override keeps the base
value (`{ ...eventType, ...hostOverride }`). -/
def resolveHostConfig (eventType : EventType) (hostId : String) : EventType :=
  match eventType.hostOverrides.lookup hostId with
  | none => eventType
  | some ov =>
    { eventType with
      length := ov.length.getD eventType.length
      scheduleKey := ov.scheduleKey.or eventType.scheduleKey
      bufferBefore := ov.bufferBefore.or eventType.bufferBefore
      bufferAfter := ov.bufferAfter.or eventType.bufferAfter
      slotInterval := ov.slotInterval.or eventType.slotInterval
      minimumNotice := ov.minimumNotice.or eventType.minimumNotice
      maximumLeadTime := ov.maximumLeadTime.or eventType.maximumLeadTime
      maxPerDay := ov.maxPerDay.or eventType.maxPerDay
      maxPerWeek := ov.maxPerWeek.or eventType.maxPerWeek }

/-- `inflateInterval` from the slots module. -/
def inflateInterval (interval : Interval) (bufferBefore bufferAfter : Int) : Interval :=
  ⟨interval.start - bufferBefore, interval.«end» + bufferAfter⟩

/-- The day-count entry of `countBookings` for one key: number of supplied
bookings of this host and event type whose start falls on the day. -/
def countBookingsDay (bookings : List Booking) (hostId eventTypeId : String)
    (k : CivilDate) : Nat :=
  (bookings.filter fun b =>
    b.hostId == hostId && b.eventTypeId == some eventTypeId &&
      getDateKey b.start == k).length

/-- The week-count entry of `countBookings` for one key. -/
def countBookingsWeek (bookings : List Booking) (hostId eventTypeId : String)
    (k : Int × Int) : Nat :=
  (bookings.filter fun b =>
    b.hostId == hostId && b.eventTypeId == some eventTypeId &&
      getWeekKey b.start == k).length

/-- The placement loop of `generateCandidateSlots`.  The source's `while`
loop advances `slotStart` by `slotInterval` and does not terminate when
`slotInterval ≤ 0`; the extra `0 < slotInterval` conjunct makes the Lean
function total and agrees with the source whenever the loop terminates. -/
def placeSlots (intervalEnd slotLength slotInterval bufferBefore bufferAfter : Int)
    (hostId : String) (slotStart : Int) : List Slot :=
  if _h : 0 < slotInterval ∧ slotStart + slotLength + bufferAfter ≤ intervalEnd then
    { hostId := hostId
      start := slotStart
      «end» := slotStart + slotLength
      bufferBefore :=
        if 0 < bufferBefore then some ⟨slotStart - bufferBefore, slotStart⟩ else none
      bufferAfter :=
        if 0 < bufferAfter then
          some ⟨slotStart + slotLength, slotStart + slotLength + bufferAfter⟩
        else none } ::
      placeSlots intervalEnd slotLength slotInterval bufferBefore bufferAfter hostId
        (slotStart + slotInterval)
  else []
termination_by (intervalEnd - slotLength - bufferAfter - slotStart + 1).toNat
decreasing_by
  omega

/-- `generateCandidateSlots` from the slots module: for each free interval
place slots from `start + bufferBefore` on the `slotInterval` grid while
the inflated slot fits. -/
def generateCandidateSlots (freeIntervals : List Interval)
    (slotLength slotInterval : Int) (hostId : String)
    (bufferBefore bufferAfter : Int) : List Slot :=
  freeIntervals.flatMap fun interval =>
    placeSlots interval.«end» slotLength slotInterval bufferBefore bufferAfter hostId
      (interval.start + bufferBefore)

/-- Step 2 of `getAvailableSlots`: this host's bookings inflated by their
own event type's buffers, plus this host's blocks. -/
def hostBusyIntervals (input : GetAvailableSlotsInput) (hostId : String) : List Interval :=
  ((input.bookings.filter fun b => b.hostId == hostId).map fun b =>
    let bookingEventTypeConfig :=
      match b.eventTypeId with
      | some etId =>
        match input.eventTypes with
        | some m => m.lookup etId
        | none => none
      | none => none
    inflateInterval ⟨b.start, b.«end»⟩
      ((bookingEventTypeConfig.bind (fun c => c.bufferBefore)).getD 0)
      ((bookingEventTypeConfig.bind (fun c => c.bufferAfter)).getD 0)) ++
  ((input.blocks.filter fun b => b.hostId == hostId).map fun b => ⟨b.start, b.«end»⟩)

/-- Step 3 of `getAvailableSlots`: clip interval starts forward to
`earliestStart` and drop empties. -/
def clipStarts (earliestStart : Int) (l : List Interval) : List Interval :=
  (l.map fun i => (⟨max i.start earliestStart, i.«end»⟩ : Interval)).filter
    fun i => decide (i.start < i.«end»)

/-- Step 4 of `getAvailableSlots`: clip interval ends back to `latestEnd`
and drop empties. -/
def clipEnds (latestEnd : Int) (l : List Interval) : List Interval :=
  (l.map fun i => (⟨i.start, min i.«end» latestEnd⟩ : Interval)).filter
    fun i => decide (i.start < i.«end»)

/-- Steps 1–4 of `getAvailableSlots` for one host: the free intervals
after schedule expansion, busy subtraction and the notice / lead-time
clips (the input to candidate generation). -/
def hostFreeIntervals (tz : TzDB) (input : GetAvailableSlotsInput) (now : Int)
    (host : HostSchedules) : List Interval :=
  let config := resolveHostConfig input.eventType host.hostId
  let scheduleKey := config.scheduleKey.getD "default"
  match host.schedules.lookup scheduleKey with
  | none => []
  | some schedule =>
    let free := expandSchedule tz schedule input.range
    let busy := hostBusyIntervals input host.hostId
    let free := if busy.isEmpty then free else subtractIntervals free busy
    let free := clipStarts (now + config.minimumNotice.getD 0) free
    match config.maximumLeadTime with
    | some lead => clipEnds (now + lead) free
    | none => free

/-- Step 5 of `getAvailableSlots` for one host. -/
def hostCandidates (tz : TzDB) (input : GetAvailableSlotsInput) (now : Int)
    (host : HostSchedules) : List Slot :=
  let config := resolveHostConfig input.eventType host.hostId
  generateCandidateSlots (hostFreeIntervals tz input now host) config.length
    (config.slotInterval.getD config.length) host.hostId
    (config.bufferBefore.getD 0) (config.bufferAfter.getD 0)

/-- Increment one entry of a count table (a `Map.set(k, get(k)+1)`). -/
def bump {κ : Type} [DecidableEq κ] (c : κ → Nat) (k : κ) : κ → Nat :=
  fun k' => if k' = k then c k' + 1 else c k'

/-- Step 6 of `getAvailableSlots`: walk the candidates in order, skipping
a slot when its day or week is already at capacity counting existing
bookings plus previously admitted candidates, and counting it otherwise. -/
def capsWalk (maxPerDay maxPerWeek : Option Int)
    (existingDay : CivilDate → Nat) (existingWeek : Int × Int → Nat) :
    List Slot → (CivilDate → Nat) → (Int × Int → Nat) → List Slot
  | [], _, _ => []
  | slot :: rest, candidateDay, candidateWeek =>
    let dayKey := getDateKey slot.start
    let weekKey := getWeekKey slot.start
    let dayBlocked :=
      match maxPerDay with
      | some m => decide (m ≤ (existingDay dayKey : Int) + (candidateDay dayKey : Int))
      | none => false
    if dayBlocked then
      capsWalk maxPerDay maxPerWeek existingDay existingWeek rest candidateDay candidateWeek
    else
      let weekBlocked :=
        match maxPerWeek with
        | some m => decide (m ≤ (existingWeek weekKey : Int) + (candidateWeek weekKey : Int))
        | none => false
      if weekBlocked then
        capsWalk maxPerDay maxPerWeek existingDay existingWeek rest candidateDay candidateWeek
      else
        slot :: capsWalk maxPerDay maxPerWeek existingDay existingWeek rest
          (bump candidateDay dayKey) (bump candidateWeek weekKey)

/-- Steps 1–6 of `getAvailableSlots` for one host: the slots this host
contributes to the output. -/
def hostSlots (tz : TzDB) (input : GetAvailableSlotsInput) (now : Int)
    (host : HostSchedules) : List Slot :=
  let config := resolveHostConfig input.eventType host.hostId
  let candidates := hostCandidates tz input now host
  if config.maxPerDay.isSome || config.maxPerWeek.isSome then
    capsWalk config.maxPerDay config.maxPerWeek
      (countBookingsDay input.bookings host.hostId input.eventType.id)
      (countBookingsWeek input.bookings host.hostId input.eventType.id)
      candidates (fun _ => 0) (fun _ => 0)
  else candidates

/-- Step 7's comparator: start ascending, then host id (the source's
`localeCompare` agrees with code-point order on ASCII ids). -/
def slotLe (a b : Slot) : Bool :=
  decide (a.start < b.start) || (decide (a.start = b.start) && decide (a.hostId ≤ b.hostId))

/-- `getAvailableSlots` from the slots module; `now` is the evaluation
instant (`now ?? new Date()` in the source). -/
def getAvailableSlots (tz : TzDB) (input : GetAvailableSlotsInput) (now : Int) : List Slot :=
  sortLe slotLe (input.hosts.flatMap (hostSlots tz input now))

/-! ### C1: per-slot invariants of `getAvailableSlots` -/

theorem placeSlots_mem {intervalEnd slotLength slotInterval bufferBefore bufferAfter : Int}
    {hostId : String} {slotStart : Int} {s : Slot}
    (hs : s ∈ placeSlots intervalEnd slotLength slotInterval bufferBefore bufferAfter
      hostId slotStart) :
    s.hostId = hostId ∧ s.«end» = s.start + slotLength ∧ slotStart ≤ s.start ∧
      s.«end» + bufferAfter ≤ intervalEnd := by
  induction slotStart using placeSlots.induct intervalEnd slotLength slotInterval
      bufferBefore bufferAfter hostId with
  | case1 slotStart h ih =>
    rw [placeSlots, dif_pos h] at hs
    rcases List.mem_cons.mp hs with rfl | hs
    · exact ⟨rfl, rfl, le_refl _, h.2⟩
    · obtain ⟨h₁, h₂, h₃, h₄⟩ := ih hs
      exact ⟨h₁, h₂, by omega, h₄⟩
  | case2 slotStart h =>
    rw [placeSlots, dif_neg h] at hs
    exact absurd hs (List.not_mem_nil s)

theorem generateCandidateSlots_mem {freeIntervals : List Interval}
    {slotLength slotInterval : Int} {hostId : String} {bufferBefore bufferAfter : Int}
    {s : Slot}
    (hs : s ∈ generateCandidateSlots freeIntervals slotLength slotInterval hostId
      bufferBefore bufferAfter) :
    ∃ F ∈ freeIntervals, s.hostId = hostId ∧ s.«end» = s.start + slotLength ∧
      F.start + bufferBefore ≤ s.start ∧ s.«end» + bufferAfter ≤ F.«end» := by
  unfold generateCandidateSlots at hs
  obtain ⟨F, hF, hs'⟩ := List.mem_flatMap.mp hs
  obtain ⟨h₁, h₂, h₃, h₄⟩ := placeSlots_mem hs'
  exact ⟨F, hF, h₁, h₂, h₃, h₄⟩

theorem capsWalk_mem {maxD maxW : Option Int} {exD : CivilDate → Nat}
    {exW : Int × Int → Nat} {slots : List Slot} {cD : CivilDate → Nat}
    {cW : Int × Int → Nat} {s : Slot}
    (hs : s ∈ capsWalk maxD maxW exD exW slots cD cW) : s ∈ slots := by
  induction slots generalizing cD cW with
  | nil => exact absurd hs (List.not_mem_nil s)
  | cons x rest ih =>
    unfold capsWalk at hs
    dsimp only at hs
    split at hs
    · exact List.mem_cons_of_mem x (ih hs)
    · split at hs
      · exact List.mem_cons_of_mem x (ih hs)
      · rcases List.mem_cons.mp hs with rfl | hs'
        · exact List.mem_cons_self s rest
        · exact List.mem_cons_of_mem x (ih hs')

theorem hostSlots_mem_candidates {tz : TzDB} {input : GetAvailableSlotsInput} {now : Int}
    {host : HostSchedules} {s : Slot} (hs : s ∈ hostSlots tz input now host) :
    s ∈ hostCandidates tz input now host := by
  unfold hostSlots at hs
  dsimp only at hs
  split at hs
  · exact capsWalk_mem hs
  · exact hs

theorem clipStarts_mem {earliestStart : Int} {l : List Interval} {F : Interval}
    (hF : F ∈ clipStarts earliestStart l) : earliestStart ≤ F.start := by
  unfold clipStarts at hF
  obtain ⟨G, _, hG⟩ := List.mem_map.mp (List.mem_filter.mp hF).1
  subst hG
  dsimp only
  omega

theorem clipEnds_mem {latestEnd : Int} {l : List Interval} {F : Interval}
    (hF : F ∈ clipEnds latestEnd l) :
    F.«end» ≤ latestEnd ∧ ∃ G ∈ l, F.start = G.start := by
  unfold clipEnds at hF
  obtain ⟨G, hGl, hG⟩ := List.mem_map.mp (List.mem_filter.mp hF).1
  subst hG
  dsimp only
  exact ⟨by omega, G, hGl, rfl⟩

theorem hostFreeIntervals_bounds (tz : TzDB) (input : GetAvailableSlotsInput) (now : Int)
    (host : HostSchedules) :
    ∀ F ∈ hostFreeIntervals tz input now host,
      now + (resolveHostConfig input.eventType host.hostId).minimumNotice.getD 0 ≤ F.start ∧
      ∀ lead, (resolveHostConfig input.eventType host.hostId).maximumLeadTime = some lead →
        F.«end» ≤ now + lead := by
  intro F hF
  unfold hostFreeIntervals at hF
  dsimp only at hF
  split at hF
  · exact absurd hF (List.not_mem_nil F)
  · revert hF
    split
    · intro hF
      rename_i lead hlead
      obtain ⟨h₁, G, hG, h₂⟩ := clipEnds_mem hF
      refine ⟨?_, ?_⟩
      · rw [h₂]
        exact clipStarts_mem hG
      · intro lead' hlead'
        rw [hlead] at hlead'
        injection hlead' with h
        omega
    · intro hF
      rename_i hlead
      refine ⟨clipStarts_mem hF, ?_⟩
      intro lead' hlead'
      rw [hlead] at hlead'
      exact absurd hlead' (Option.noConfusion)

/-- C1: every slot `s` returned by `getAvailableSlots` has
`s.end − s.start` equal to the resolved event-type length for `s.hostId`,
starts no earlier than `now` plus the resolved minimum notice, ends no
later than `now` plus the resolved maximum lead time when that is set, and
its inflated interval `[s.start − bufferBefore, s.end + bufferAfter)` lies
inside one of the free intervals produced for its host after busy
subtraction and the notice / lead-time clips.  The hypothesis states that
the resolved buffers are genuine (non-negative) durations. -/
theorem getAvailableSlots_slot_invariants (tz : TzDB) (input : GetAvailableSlotsInput)
    (now : Int)
    (hbuf : ∀ host ∈ input.hosts,
      0 ≤ (resolveHostConfig input.eventType host.hostId).bufferBefore.getD 0 ∧
      0 ≤ (resolveHostConfig input.eventType host.hostId).bufferAfter.getD 0) :
    ∀ s ∈ getAvailableSlots tz input now,
      s.«end» - s.start = (resolveHostConfig input.eventType s.hostId).length ∧
      now + (resolveHostConfig input.eventType s.hostId).minimumNotice.getD 0 ≤ s.start ∧
      (∀ lead, (resolveHostConfig input.eventType s.hostId).maximumLeadTime = some lead →
        s.«end» ≤ now + lead) ∧
      ∃ host ∈ input.hosts, host.hostId = s.hostId ∧
        ∃ F ∈ hostFreeIntervals tz input now host,
          F.start ≤ s.start -
            (resolveHostConfig input.eventType s.hostId).bufferBefore.getD 0 ∧
          s.«end» + (resolveHostConfig input.eventType s.hostId).bufferAfter.getD 0 ≤
            F.«end» := by
  intro s hs
  unfold getAvailableSlots at hs
  have hs' := (sortLe_perm slotLe _).mem_iff.mp hs
  obtain ⟨host, hhost, hmem⟩ := List.mem_flatMap.mp hs'
  have hc := hostSlots_mem_candidates hmem
  unfold hostCandidates at hc
  dsimp only at hc
  obtain ⟨F, hF, hid, hlen, hlo, hhi⟩ := generateCandidateSlots_mem hc
  obtain ⟨hstart, hlead⟩ := hostFreeIntervals_bounds tz input now host F hF
  obtain ⟨hb0, ha0⟩ := hbuf host hhost
  rw [← hid] at hb0 ha0 hstart hlead hlen hlo hhi
  refine ⟨by omega, by omega, ?_, host, hhost, hid.symm, F, hF, by omega, hhi⟩
  intro lead hl
  have := hlead lead hl
  omega

/-! ### C2: the day / week caps -/

/-- Number of slots in the list whose start falls on UTC day `k`. -/
def countSlotsDay (slots : List Slot) (k : CivilDate) : Nat :=
  (slots.filter fun s => getDateKey s.start == k).length

/-- Number of slots in the list whose start falls in ISO week `k`. -/
def countSlotsWeek (slots : List Slot) (k : Int × Int) : Nat :=
  (slots.filter fun s => getWeekKey s.start == k).length

theorem countSlotsDay_cons {x : Slot} {l : List Slot} {k : CivilDate} :
    countSlotsDay (x :: l) k =
      countSlotsDay l k + (if getDateKey x.start = k then 1 else 0) := by
  unfold countSlotsDay
  rw [List.filter_cons]
  by_cases h : getDateKey x.start = k
  · simp [h]
  · simp [h]

theorem countSlotsWeek_cons {x : Slot} {l : List Slot} {k : Int × Int} :
    countSlotsWeek (x :: l) k =
      countSlotsWeek l k + (if getWeekKey x.start = k then 1 else 0) := by
  unfold countSlotsWeek
  rw [List.filter_cons]
  by_cases h : getWeekKey x.start = k
  · simp [h]
  · simp [h]

theorem capsWalk_day_bound (maxW : Option Int) (m : Int)
    (exD : CivilDate → Nat) (exW : Int × Int → Nat) (k : CivilDate) :
    ∀ (slots : List Slot) (cD : CivilDate → Nat) (cW : Int × Int → Nat),
      (countSlotsDay (capsWalk (some m) maxW exD exW slots cD cW) k : Int) +
          (cD k : Int) + (exD k : Int) ≤
        max m ((cD k : Int) + (exD k : Int)) := by
  intro slots
  induction slots with
  | nil =>
    intro cD cW
    unfold capsWalk countSlotsDay
    simp only [List.filter_nil, List.length_nil, Nat.cast_zero]
    omega
  | cons x rest ih =>
    intro cD cW
    unfold capsWalk
    dsimp only
    split
    · exact ih cD cW
    · rename_i hday
      simp only [decide_eq_true_eq] at hday
      split
      · exact ih cD cW
      · rw [countSlotsDay_cons]
        by_cases hk : getDateKey x.start = k
        · subst hk
          have hb : bump cD (getDateKey x.start) (getDateKey x.start) =
              cD (getDateKey x.start) + 1 := by
            unfold bump
            rw [if_pos rfl]
          have hrec := ih (bump cD (getDateKey x.start)) (bump cW (getWeekKey x.start))
          rw [hb] at hrec
          simp only [if_pos rfl]
          push_cast at hrec ⊢
          omega
        · have hb : bump cD (getDateKey x.start) k = cD k := by
            unfold bump
            rw [if_neg (fun h => hk h.symm)]
          have hrec := ih (bump cD (getDateKey x.start)) (bump cW (getWeekKey x.start))
          rw [hb] at hrec
          rw [if_neg hk]
          push_cast at hrec ⊢
          omega

theorem capsWalk_week_bound (maxD : Option Int) (m : Int)
    (exD : CivilDate → Nat) (exW : Int × Int → Nat) (k : Int × Int) :
    ∀ (slots : List Slot) (cD : CivilDate → Nat) (cW : Int × Int → Nat),
      (countSlotsWeek (capsWalk maxD (some m) exD exW slots cD cW) k : Int) +
          (cW k : Int) + (exW k : Int) ≤
        max m ((cW k : Int) + (exW k : Int)) := by
  intro slots
  induction slots with
  | nil =>
    intro cD cW
    unfold capsWalk countSlotsWeek
    simp only [List.filter_nil, List.length_nil, Nat.cast_zero]
    omega
  | cons x rest ih =>
    intro cD cW
    unfold capsWalk
    dsimp only
    split
    · exact ih cD cW
    · split
      · exact ih cD cW
      · rename_i hweek
        simp only [decide_eq_true_eq] at hweek
        rw [countSlotsWeek_cons]
        by_cases hk : getWeekKey x.start = k
        · subst hk
          have hb : bump cW (getWeekKey x.start) (getWeekKey x.start) =
              cW (getWeekKey x.start) + 1 := by
            unfold bump
            rw [if_pos rfl]
          have hrec := ih (bump cD (getDateKey x.start)) (bump cW (getWeekKey x.start))
          rw [hb] at hrec
          simp only [if_pos rfl]
          push_cast at hrec ⊢
          omega
        · have hb : bump cW (getWeekKey x.start) k = cW k := by
            unfold bump
            rw [if_neg (fun h => hk h.symm)]
          have hrec := ih (bump cD (getDateKey x.start)) (bump cW (getWeekKey x.start))
          rw [hb] at hrec
          rw [if_neg hk]
          push_cast at hrec ⊢
          omega

/-- C2 (amended): with `maxPerDay = m` set, the slots a host contributes on
any UTC day, plus the existing bookings of `(host, eventType.id)` counted
on that day, stay at or below `max m existing` — equivalently the walk
admits at most `max 0 (m − existing)` new slots per day, and whenever
existing bookings do not already exceed the cap the original bound
`admitted + existing ≤ m` holds; analogously per ISO week with
`maxPerWeek`. -/
theorem hostSlots_respects_caps (tz : TzDB) (input : GetAvailableSlotsInput) (now : Int)
    (host : HostSchedules) :
    (∀ m : Int, (resolveHostConfig input.eventType host.hostId).maxPerDay = some m →
      ∀ k : CivilDate,
        (countSlotsDay (hostSlots tz input now host) k : Int) +
            (countBookingsDay input.bookings host.hostId input.eventType.id k : Int) ≤
          max m (countBookingsDay input.bookings host.hostId input.eventType.id k : Int)) ∧
    (∀ m : Int, (resolveHostConfig input.eventType host.hostId).maxPerWeek = some m →
      ∀ k : Int × Int,
        (countSlotsWeek (hostSlots tz input now host) k : Int) +
            (countBookingsWeek input.bookings host.hostId input.eventType.id k : Int) ≤
          max m (countBookingsWeek input.bookings host.hostId input.eventType.id k : Int)) := by
  constructor
  · intro m hm k
    unfold hostSlots
    dsimp only
    rw [hm]
    simp only [Option.isSome_some, Bool.true_or, if_true]
    have := capsWalk_day_bound (resolveHostConfig input.eventType host.hostId).maxPerWeek
      m (countBookingsDay input.bookings host.hostId input.eventType.id)
      (countBookingsWeek input.bookings host.hostId input.eventType.id) k
      (hostCandidates tz input now host) (fun _ => 0) (fun _ => 0)
    simpa using this
  · intro m hm k
    unfold hostSlots
    dsimp only
    rw [hm]
    simp only [Option.isSome_some, Bool.or_true, if_true]
    have := capsWalk_week_bound (resolveHostConfig input.eventType host.hostId).maxPerDay
      m (countBookingsDay input.bookings host.hostId input.eventType.id)
      (countBookingsWeek input.bookings host.hostId input.eventType.id) k
      (hostCandidates tz input now host) (fun _ => 0) (fun _ => 0)
    simpa using this

/-! ### Concrete fixtures for witnesses and counterexamples -/

/-- A weekday 09:00–17:00 UTC rule. -/
def weekdayRule : ScheduleRule :=
  { days := [.monday, .tuesday, .wednesday, .thursday, .friday],
    startTime := ⟨9, 0⟩, endTime := ⟨17, 0⟩, timezone := "UTC",
    effectiveFrom := none, effectiveUntil := none }

/-- A host with one default schedule. -/
def sampleHost : HostSchedules :=
  { hostId := "host-1",
    schedules := [("default",
      { id := "default", rules := [weekdayRule], overrides := [] })] }

/-- A plain 30-minute event type. -/
def sampleEventType : EventType :=
  { id := "consultation", length := 1800000, scheduleKey := none,
    bufferBefore := none, bufferAfter := none, slotInterval := none,
    minimumNotice := none, maximumLeadTime := none, maxPerDay := none,
    maxPerWeek := none, hostOverrides := [] }

/-- Monday 2024-01-01 00:00 UTC. -/
def sampleNow : Int := dateUTC 2024 1 1 0 0 0

/-- One Monday of the sample host's schedule. -/
def sampleInput : GetAvailableSlotsInput :=
  { eventType := sampleEventType, hosts := [sampleHost], bookings := [],
    blocks := [], range := ⟨dateUTC 2024 1 1 0 0 0, dateUTC 2024 1 2 0 0 0⟩,
    eventTypes := none }

/-- C1 witness: the buffer hypotheses hold for the sample input and the
slot invariants follow for every returned slot. -/
theorem getAvailableSlots_slot_invariants_witness :
    (∀ host ∈ sampleInput.hosts,
      0 ≤ (resolveHostConfig sampleInput.eventType host.hostId).bufferBefore.getD 0 ∧
      0 ≤ (resolveHostConfig sampleInput.eventType host.hostId).bufferAfter.getD 0) ∧
    (∀ s ∈ getAvailableSlots utcTz sampleInput sampleNow,
      s.«end» - s.start = (resolveHostConfig sampleInput.eventType s.hostId).length ∧
      sampleNow + (resolveHostConfig sampleInput.eventType s.hostId).minimumNotice.getD 0 ≤
        s.start ∧
      (∀ lead,
        (resolveHostConfig sampleInput.eventType s.hostId).maximumLeadTime = some lead →
        s.«end» ≤ sampleNow + lead) ∧
      ∃ host ∈ sampleInput.hosts, host.hostId = s.hostId ∧
        ∃ F ∈ hostFreeIntervals utcTz sampleInput sampleNow host,
          F.start ≤ s.start -
            (resolveHostConfig sampleInput.eventType s.hostId).bufferBefore.getD 0 ∧
          s.«end» + (resolveHostConfig sampleInput.eventType s.hostId).bufferAfter.getD 0 ≤
            F.«end») :=
  ⟨by decide,
   fun s hs =>
     getAvailableSlots_slot_invariants utcTz sampleInput sampleNow (by decide) s hs⟩

/-- An event type capped at one booking per day. -/
def cappedEventType : EventType :=
  { sampleEventType with id := "e", maxPerDay := some 1 }

/-- A host entry with no schedules at all (it contributes no slots). -/
def bareHost : HostSchedules := { hostId := "h", schedules := [] }

/-- Input whose existing bookings already exceed the daily cap. -/
def overbookedInput : GetAvailableSlotsInput :=
  { eventType := cappedEventType, hosts := [bareHost],
    bookings :=
      [{ id := none, hostId := "h", start := dateUTC 2024 1 1 9 0 0,
         «end» := dateUTC 2024 1 1 9 30 0, eventTypeId := some "e" },
       { id := none, hostId := "h", start := dateUTC 2024 1 1 10 0 0,
         «end» := dateUTC 2024 1 1 10 30 0, eventTypeId := some "e" }],
    blocks := [], range := ⟨dateUTC 2024 1 1 0 0 0, dateUTC 2024 1 2 0 0 0⟩,
    eventTypes := none }

/-- C2 counterexample: with `maxPerDay = 1` set and two existing bookings
of the capped `(host, eventType.id)` on 2024-01-01, the number of slots
admitted for that host on that day plus the existing-booking count is 2,
which exceeds `maxPerDay` — the claimed bound `admitted + existing ≤
maxPerDay` fails whenever the supplied bookings already exceed the cap. -/
theorem caps_claim_counterexample :
    overbookedInput.eventType.maxPerDay = some 1 ∧
    bareHost ∈ overbookedInput.hosts ∧
    ¬ ((countSlotsDay (hostSlots utcTz overbookedInput sampleNow bareHost)
          ⟨2024, 1, 1⟩ : Int) +
        (countBookingsDay overbookedInput.bookings bareHost.hostId
          overbookedInput.eventType.id ⟨2024, 1, 1⟩ : Int) ≤ 1) := by
  refine ⟨rfl, ?_, ?_⟩ <;> decide

/-- An event type with both caps set. -/
def doubleCappedEventType : EventType :=
  { sampleEventType with maxPerDay := some 2, maxPerWeek := some 5 }

/-- The sample input with both caps set. -/
def doubleCappedInput : GetAvailableSlotsInput :=
  { sampleInput with eventType := doubleCappedEventType }

/-- C2 witness: the amended cap bounds instantiated at a concrete input
with `maxPerDay = 2` and `maxPerWeek = 5`. -/
theorem hostSlots_respects_caps_witness :
    (resolveHostConfig doubleCappedInput.eventType sampleHost.hostId).maxPerDay = some 2 ∧
    (resolveHostConfig doubleCappedInput.eventType sampleHost.hostId).maxPerWeek = some 5 ∧
    (∀ k : CivilDate,
      (countSlotsDay (hostSlots utcTz doubleCappedInput sampleNow sampleHost) k : Int) +
          (countBookingsDay doubleCappedInput.bookings sampleHost.hostId
            doubleCappedInput.eventType.id k : Int) ≤
        max 2 (countBookingsDay doubleCappedInput.bookings sampleHost.hostId
            doubleCappedInput.eventType.id k : Int)) ∧
    (∀ k : Int × Int,
      (countSlotsWeek (hostSlots utcTz doubleCappedInput sampleNow sampleHost) k : Int) +
          (countBookingsWeek doubleCappedInput.bookings sampleHost.hostId
            doubleCappedInput.eventType.id k : Int) ≤
        max 5 (countBookingsWeek doubleCappedInput.bookings sampleHost.hostId
            doubleCappedInput.eventType.id k : Int)) :=
  ⟨rfl, rfl,
   fun k =>
     (hostSlots_respects_caps utcTz doubleCappedInput sampleNow sampleHost).1 2 rfl k,
   fun k =>
     (hostSlots_respects_caps utcTz doubleCappedInput sampleNow sampleHost).2 5 rfl k⟩

/-! ### The recurrence expander (`helpers.ts`) -/

/-- `getWeekNumber` from the recurrence helpers — the source duplicates the
slots module's `getISOWeek` verbatim. -/
def getWeekNumber (t : Int) : Int :=
  let d := dayNumber t
  let w := dayOfWeekNum d
  let dayNum := if w = 0 then 7 else w
  let dThu := d + 4 - dayNum
  let yearStart := daysFromCivil (civilFromDays dThu).year 1 1
  (dThu - yearStart + 1 + 6).ediv 7

/-- `Date.prototype.getUTCFullYear()`. -/
def utcFullYear (t : Int) : Int := (civilFromDays (dayNumber t)).year

/-- `isInBiweeklyCycle` from `helpers.ts`: compare the parity of
`calendarYear * 52 + isoWeekNumber` between the date and the anchor
(JavaScript's `x % 2 === 0` holds exactly when `x` is even, which is
`x % 2 = 0` on Lean integers). -/
def isInBiweeklyCycle (date anchorDate : Int) : Bool :=
  let anchorTotalWeeks := utcFullYear anchorDate * 52 + getWeekNumber anchorDate
  let dateTotalWeeks := utcFullYear date * 52 + getWeekNumber date
  (dateTotalWeeks - anchorTotalWeeks) % 2 == 0

/-- `getDayOfMonthInTimezone` from `helpers.ts`. -/
def getDayOfMonthInTimezone (tz : TzDB) (t : Int) (zone : String) : Int :=
  (intlDate tz zone t).day

/-- `localTimeToUtc` from `helpers.ts` (distinct from `schedule.ts`'s
`localTimeToUTC`): build the local datetime on `date`'s day in the zone,
compute the zone offset at that rough instant (minute precision — the
source reads year … minute and passes 0 seconds), subtract. -/
def localTimeToUtc (tz : TzDB) (date : Int) (localTime : LocalTime) (zone : String) : Int :=
  let dp := intlDate tz zone date
  let tempDate := dateUTC dp.year dp.month dp.day localTime.hours localTime.minutes 0
  let c := intlCivil tz zone tempDate
  let tzDate := dateUTC c.year c.month c.day c.hour c.minute 0
  let offset := tzDate - tempDate
  tempDate - offset

/-- `isExcluded` from `helpers.ts`: same formatted day in the rule zone as
some excluded date. -/
def isExcluded (tz : TzDB) (date : Int) (excludeDates : Option (List Int))
    (zone : String) : Bool :=
  match excludeDates with
  | none => false
  | some l => l.any fun e => intlDate tz zone e == intlDate tz zone date

/-- `RecurrenceFrequency` from `types.ts`. -/
inductive RecurrenceFrequency where
  | daily | weekly | biweekly | monthly
deriving DecidableEq, Repr

/-- `RecurrenceRule` from `types.ts`. -/
structure RecurrenceRule where
  frequency : RecurrenceFrequency
  days : Option (List DayOfWeek)
  dayOfMonth : Option Int
  startTime : LocalTime
  endTime : LocalTime
  timezone : String
  start : Option Int
  «until» : Option Int
  count : Option Int
  exclude : Option (List Int)
deriving DecidableEq, Repr

/-- The `switch (rule.frequency)` day filter of `expandRecurrence`. -/
def recShouldInclude (tz : TzDB) (rule : RecurrenceRule) (range : DateRange)
    (currentDate : Int) : Bool :=
  let dayOfWeek := getDayOfWeekInTimezone tz currentDate rule.timezone
  let dayOfMonth := getDayOfMonthInTimezone tz currentDate rule.timezone
  match rule.frequency with
  | .daily =>
    match rule.days with
    | none => true
    | some ds => ds.contains dayOfWeek
  | .weekly =>
    match rule.days with
    | none => false
    | some ds => ds.contains dayOfWeek
  | .biweekly =>
    match rule.days with
    | some ds =>
      if ds.contains dayOfWeek then
        isInBiweeklyCycle currentDate (rule.start.getD range.start)
      else false
    | none => false
  | .monthly => rule.dayOfMonth == some dayOfMonth

/-- The day-by-day loop of `expandRecurrence`: `count` counts emitted
occurrences against `rule.count`.  The loop is driven by the source's own
guard `currentDate < effectiveEnd`; the structural `fuel` argument only
bounds the recursion and is chosen large enough in `expandRecurrence`
that it never runs out before the guard fails. -/
def recLoop (tz : TzDB) (rule : RecurrenceRule) (range : DateRange) (effectiveEnd : Int) :
    Nat → Int → Int → List Interval
  | 0, _, _ => []
  | fuel + 1, currentDate, count =>
    if currentDate < effectiveEnd then
      let countOk : Bool :=
        match rule.count with
        | some maxCount => decide (count < maxCount)
        | none => true
      if countOk then
        let emit : List Interval :=
          if recShouldInclude tz rule range currentDate &&
              ! isExcluded tz currentDate rule.exclude rule.timezone then
            let s := localTimeToUtc tz currentDate rule.startTime rule.timezone
            let e := localTimeToUtc tz currentDate rule.endTime rule.timezone
            if (range.start ≤ s ∧ e ≤ range.«end») ∨
                (range.start ≤ s ∧ s < range.«end») then
              [⟨s, e⟩]
            else []
          else []
        emit ++ recLoop tz rule range effectiveEnd fuel (currentDate + msPerDay)
          (count + emit.length)
      else []
    else []

/-- `expandRecurrence` from `helpers.ts`: iterate day by day from one day
before the range to one day after it (clamped by `until`).  The fuel
`(effectiveEnd − effectiveStart).toNat / 86400000 + 1` bounds the number
of day steps the guard can admit. -/
def expandRecurrence (tz : TzDB) (rule : RecurrenceRule) (range : DateRange) :
    List Interval :=
  let effectiveStart := range.start - msPerDay
  let rangeEndExtended := range.«end» + msPerDay
  let effectiveEnd :=
    match rule.«until» with
    | some u => min rangeEndExtended u
    | none => rangeEndExtended
  recLoop tz rule range effectiveEnd
    ((effectiveEnd - effectiveStart).toNat / 86400000 + 1) effectiveStart 0

/-! ### C6: the biweekly frequency filter -/

/-- Modelled from the claim's words: the Monday starting day of the
ISO week (Monday-based) containing instant `t`. -/
def isoWeekMondayDay (t : Int) : Int :=
  let d := dayNumber t
  d - (dayOfWeekNum d + 6) % 7

/-- Modelled from the claim's words: the ISO week distance between two
days — the number of Monday-based weeks separating the ISO weeks that
contain them. -/
def isoWeekDistance (date anchorDate : Int) : Int :=
  (isoWeekMondayDay date - isoWeekMondayDay anchorDate).ediv 7

/-- C6 (amended): for a biweekly rule, a day passes the frequency filter
iff its day-of-week in the rule's zone is in the rule's days set and the
source's week measure `calendarYear·52 + isoWeekNumber` differs by an even
amount between the day and the anchor (the rule's `start`, defaulting to
`range.start`).  The source approximates the ISO week distance by this
measure, which disagrees with it in parity across 53-week ISO years. -/
theorem biweekly_inclusion (tz : TzDB) (rule : RecurrenceRule) (range : DateRange)
    (currentDate : Int) (hf : rule.frequency = .biweekly) :
    recShouldInclude tz rule range currentDate = true ↔
      (rule.days.getD []).contains
          (getDayOfWeekInTimezone tz currentDate rule.timezone) = true ∧
      (utcFullYear currentDate * 52 + getWeekNumber currentDate -
        (utcFullYear (rule.start.getD range.start) * 52 +
          getWeekNumber (rule.start.getD range.start))) % 2 = 0 := by
  unfold recShouldInclude
  rw [hf]
  cases hd : rule.days with
  | none => simp
  | some ds =>
    by_cases hc :
        ds.contains (getDayOfWeekInTimezone tz currentDate rule.timezone) = true
    · simp only [hd, hc, if_true, Option.getD_some, true_and]
      unfold isInBiweeklyCycle
      simp only [beq_iff_eq]
    · simp only [hd, hc]
      simp only [Bool.false_eq_true, if_false, Option.getD_some]
      constructor
      · intro h
        exact absurd h (by simp)
      · intro h
        exact absurd h.1 hc

/-- A biweekly Monday rule anchored in ISO week 53 of 2020. -/
def biweeklyRule : RecurrenceRule :=
  { frequency := .biweekly, days := some [.monday], dayOfMonth := none,
    startTime := ⟨9, 0⟩, endTime := ⟨10, 0⟩, timezone := "UTC",
    start := some (dateUTC 2020 12 28 0 0 0), «until» := none, count := none,
    exclude := none }

/-- Two weeks around the 2020→2021 ISO year boundary. -/
def biweeklyRange : DateRange :=
  ⟨dateUTC 2020 12 28 0 0 0, dateUTC 2021 1 11 0 0 0⟩

/-- Monday 2021-01-04, one ISO week after the anchor Monday 2020-12-28. -/
def biweeklyDay : Int := dateUTC 2021 1 4 0 0 0

/-- C6 counterexample: the anchor 2020-12-28 lies in ISO week 53 of 2020
and 2021-01-04 lies in ISO week 1 of 2021, one week later — an odd ISO
week distance, so the claim excludes the day — yet the code includes it
(its `year·52 + week` measure differs by `2021·52+1 − (2020·52+53) = 0`),
and `expandRecurrence` emits occurrences on both consecutive Mondays. -/
theorem biweekly_claim_counterexample :
    ¬ (recShouldInclude utcTz biweeklyRule biweeklyRange biweeklyDay = true ↔
        (biweeklyRule.days.getD []).contains
            (getDayOfWeekInTimezone utcTz biweeklyDay biweeklyRule.timezone) = true ∧
        isoWeekDistance biweeklyDay (biweeklyRule.start.getD biweeklyRange.start) % 2 = 0) ∧
    isoWeekDistance biweeklyDay (biweeklyRule.start.getD biweeklyRange.start) = 1 ∧
    (expandRecurrence utcTz biweeklyRule biweeklyRange).map (fun i => i.start) =
      [dateUTC 2020 12 28 9 0 0, dateUTC 2021 1 4 9 0 0] := by
  refine ⟨?_, by decide, by decide⟩
  decide

/-- C6 witness: the amended equivalence instantiated at the concrete
biweekly rule, range and day. -/
theorem biweekly_inclusion_witness :
    biweeklyRule.frequency = RecurrenceFrequency.biweekly ∧
    (recShouldInclude utcTz biweeklyRule biweeklyRange biweeklyDay = true ↔
      (biweeklyRule.days.getD []).contains
          (getDayOfWeekInTimezone utcTz biweeklyDay biweeklyRule.timezone) = true ∧
      (utcFullYear biweeklyDay * 52 + getWeekNumber biweeklyDay -
        (utcFullYear (biweeklyRule.start.getD biweeklyRange.start) * 52 +
          getWeekNumber (biweeklyRule.start.getD biweeklyRange.start))) % 2 = 0) :=
  ⟨rfl, biweekly_inclusion utcTz biweeklyRule biweeklyRange biweeklyDay rfl⟩

/-! ### C9: `expandRecurrence` and degenerate intervals -/

/-- A daily rule whose end time equals its start time: each occurrence is
the empty interval `[09:00, 09:00)`. -/
def degenerateRule : RecurrenceRule :=
  { frequency := .daily, days := none, dayOfMonth := none,
    startTime := ⟨9, 0⟩, endTime := ⟨9, 0⟩, timezone := "UTC",
    start := none, «until» := none, count := none, exclude := none }

/-- C9 (code bug): `expandRecurrence` has no positivity check — on
2024-01-01 with start and end times both 09:00 it returns an interval
whose end is not strictly after its start, instead of dropping it as the
data model requires (`expandSchedule` does drop such intervals). -/
theorem expandRecurrence_emits_degenerate_interval :
    expandRecurrence utcTz degenerateRule
        ⟨dateUTC 2024 1 1 0 0 0, dateUTC 2024 1 2 0 0 0⟩ =
      [⟨dateUTC 2024 1 1 9 0 0, dateUTC 2024 1 1 9 0 0⟩] ∧
    ¬ (dateUTC 2024 1 1 9 0 0 < dateUTC 2024 1 1 9 0 0) := by
  refine ⟨by decide, by decide⟩

/-! ### Entitlements time primitives (`packages/entitlements/src/time.ts`) -/

/-- `CalendarUnit` from the entitlements types. -/
inductive CalendarUnit where
  | hour | day | week | month | year
deriving DecidableEq, Repr

/-- `Duration`: raw milliseconds or a structured object. -/
inductive Duration where
  | ms (n : Int)
  | structured (hours days weeks months : Option Int)
deriving DecidableEq, Repr

/-- `durationToMs` from `time.ts` (months approximated as 30 days; an
absent — or zero, which is falsy — field contributes nothing either way). -/
def durationToMs : Duration → Int
  | .ms n => n
  | .structured hours days weeks months =>
    hours.getD 0 * 3600000 + days.getD 0 * 86400000 +
      weeks.getD 0 * 604800000 + months.getD 0 * 2592000000

/-- `WindowSpec` from the entitlements types. -/
inductive WindowSpec where
  | calendar (unit : CalendarUnit) (timezone : Option String)
  | sliding (duration : Duration)
  | lifetime
  | fixed (start «end» : Int)
deriving DecidableEq, Repr

/-- Modelled from the date-fns contract: the start of the calendar unit
containing a naive wall-clock instant `w` (weeks start Monday). -/
def startOfUnitWall (u : CalendarUnit) (w : Int) : Int :=
  match u with
  | .hour => w.ediv 3600000 * 3600000
  | .day => dayFloor w
  | .week =>
    let d := dayNumber w
    (d - (dayOfWeekNum d + 6) % 7) * msPerDay
  | .month =>
    let c := civilFromDays (dayNumber w)
    daysFromCivil c.year c.month 1 * msPerDay
  | .year =>
    let c := civilFromDays (dayNumber w)
    daysFromCivil c.year 1 1 * msPerDay

/-- Modelled from the date-fns contract: `endOfX(w) + 1 ms`, i.e. the
start of the next calendar unit. -/
def endOfUnitWall (u : CalendarUnit) (w : Int) : Int :=
  match u with
  | .hour => startOfUnitWall .hour w + 3600000
  | .day => startOfUnitWall .day w + msPerDay
  | .week => startOfUnitWall .week w + 7 * msPerDay
  | .month =>
    let c := civilFromDays (dayNumber w)
    dateUTC c.year (c.month + 1) 1 0 0 0
  | .year =>
    let c := civilFromDays (dayNumber w)
    dateUTC (c.year + 1) 1 1 0 0 0

/-- Modelled from date-fns-tz's `toZonedTime` with the host system zone
taken to be UTC: shift the instant so its UTC fields show the zone's wall
clock. -/
def toZonedTime (tz : TzDB) (zone : String) (t : Int) : Int :=
  wallClock tz zone t

/-- Modelled from date-fns-tz's `fromZonedTime` (system zone UTC): find
the UTC instant whose wall clock in `zone` is `w`, probing the offset at
the first approximation. -/
def fromZonedTime (tz : TzDB) (zone : String) (w : Int) : Int :=
  w - tz zone (w - tz zone w)

/-- `getStartOfUnit` from `time.ts`: convert into the zone, floor to the
unit, convert back; without a zone operate on the instant directly. -/
def getStartOfUnit (tz : TzDB) (t : Int) (u : CalendarUnit) (zone : Option String) : Int :=
  match zone with
  | none => startOfUnitWall u t
  | some z => fromZonedTime tz z (startOfUnitWall u (toZonedTime tz z t))

/-- `getEndOfUnit` from `time.ts`. -/
def getEndOfUnit (tz : TzDB) (t : Int) (u : CalendarUnit) (zone : Option String) : Int :=
  match zone with
  | none => endOfUnitWall u t
  | some z => fromZonedTime tz z (endOfUnitWall u (toZonedTime tz z t))

/-- `EPOCH` from `time.ts` (`new Date(0)`). -/
def EPOCH : Int := 0

/-- `FAR_FUTURE` from `time.ts` (`new Date('9999-12-31T23:59:59.999Z')`). -/
def FAR_FUTURE : Int := 253402300799999

/-- `resolveWindow` from `time.ts`: the concrete interval of a window spec
at the reference instant `t`. -/
def resolveWindow (tz : TzDB) (spec : WindowSpec) (t : Int) : Interval :=
  match spec with
  | .calendar u zone => ⟨getStartOfUnit tz t u zone, getEndOfUnit tz t u zone⟩
  | .sliding dur => ⟨t - durationToMs dur, t⟩
  | .lifetime => ⟨EPOCH, FAR_FUTURE⟩
  | .fixed s e => ⟨s, e⟩

/-! ### Limit math (`packages/entitlements/src/limits.ts`) -/

/-- `Obligation`: the engine only ever builds
`{ type: 'consume', params: { amount } }`, modelled as type plus amount. -/
structure Obligation where
  otype : String
  amount : Int
deriving DecidableEq, Repr

/-- `LimitCheckResult` from the entitlements types. -/
structure LimitCheckResult where
  allowed : Bool
  remaining : Option Int
  obligation : Option Obligation
deriving DecidableEq, Repr

/-- `checkLimit` from `limits.ts` (`consume` defaults to 1 at the call
sites; here it is an explicit argument). -/
def checkLimit (limit : Option Int) (used : Int) (consume : Int) : LimitCheckResult :=
  match limit with
  | none => ⟨true, none, none⟩
  | some l =>
    let remaining := l - used
    if l < used + consume then ⟨false, some (max 0 remaining), none⟩
    else ⟨true, some (remaining - consume), some ⟨"consume", consume⟩⟩

/-- C7: `checkLimit` on a finite limit denies with
`remaining = max(0, limit − used)` and no obligation exactly when
`used + consume > limit`, and otherwise allows with
`remaining = limit − used − consume` and a consume obligation of amount
`consume`; on an unlimited limit it always allows with unlimited
remaining and no obligation. -/
theorem checkLimit_spec (l used consume : Int) :
    (checkLimit (some l) used consume =
      if used + consume > l then
        ⟨false, some (max 0 (l - used)), none⟩
      else
        ⟨true, some (l - used - consume), some ⟨"consume", consume⟩⟩) ∧
    checkLimit none used consume = ⟨true, none, none⟩ := by
  exact ⟨rfl, rfl⟩

/-! ### The policy resolvers (`policy.ts`) and the weighted resolver -/

/-- `RuleResult` from the entitlements types. -/
inductive RuleResult where
  | allow (explanation : String) (obligations : List Obligation)
  | deny (explanation : String)
  | skip (explanation : String)
deriving DecidableEq, Repr

/-- The weighted resolver's outcome `{ score }`. -/
structure ScoreResult where
  score : Int
deriving DecidableEq, Repr

/-- `createWeightedResolver` from `policy.ts`: the returned resolver
ignores the supplied weight table and adds 1 per allow result (the source
comment reads "Would need rule ID here; for now just count"). -/
def createWeightedResolver (weights : List (String × Int)) :
    List RuleResult → ScoreResult :=
  fun results =>
    ⟨results.foldl
      (fun score r =>
        match r with
        | .allow _ _ => score + 1
        | _ => score) 0⟩

/-- C5 (code bug): with the weight table `{ r1: 2 }` and a single allow
result, the resolver returned by `createWeightedResolver` yields score 1
(it counts allows), not the per-rule weight sum 2 the documentation and
spec describe; `RuleResult` carries no rule id, so the table cannot even
be consulted. -/
theorem createWeightedResolver_ignores_weights :
    createWeightedResolver [("r1", 2)] [RuleResult.allow "ok" []] = ⟨1⟩ ∧
    (1 : Int) ≠ 2 := by
  refine ⟨rfl, by decide⟩

/-! ### The `check` query's adapter call (`entitlements.ts`) -/

/-- `Entitlement` from the entitlements types. -/
structure Entitlement where
  limit : Option Int
  window : Option WindowSpec
deriving DecidableEq, Repr

/-- The usage-loading step of `check` (`entitlements.ts` lines 121–130):
the interval `check` passes to the `getUsage` adapter, or `none` when the
adapter is not called.  `now` is the engine's own clock instant —
`CheckInput` has no `at` field, and `resolveWindow(entitlement.window)`
is invoked without a reference argument, defaulting to `new Date()`. -/
def checkUsageInterval (tz : TzDB) (ent : Entitlement) (now : Int) : Option Interval :=
  match ent.limit, ent.window with
  | some _, some w => some (resolveWindow tz w now)
  | some _, none => some (resolveWindow tz .lifetime now)
  | none, _ => none

/-- The entitlement of the repository's own "respects at override" test:
limit 10 inside a UTC calendar-day window. -/
def atOverrideEntitlement : Entitlement :=
  ⟨some 10, some (.calendar .day (some "UTC"))⟩

/-- C4 (code bug): `check` ignores any caller-supplied `at`.  The
interval given to `getUsage` is `resolveWindow(window, now)` for the
engine's own clock `now` — evaluated here at clock instant
2024-06-01T00:00Z it is the June 1 day window — whereas the claim (and
the repository's own test, which calls
`check({ actorId, action, at: 2024-01-15T12:34Z })` and expects the
interval to start at 2024-01-15T00:00Z) requires the day window of the
supplied `at`.  `CheckInput` has no `at` field at all. -/
theorem check_ignores_at_override :
    checkUsageInterval utcTz atOverrideEntitlement (dateUTC 2024 6 1 0 0 0) =
      some (resolveWindow utcTz (.calendar .day (some "UTC")) (dateUTC 2024 6 1 0 0 0)) ∧
    checkUsageInterval utcTz atOverrideEntitlement (dateUTC 2024 6 1 0 0 0) =
      some ⟨dateUTC 2024 6 1 0 0 0, dateUTC 2024 6 2 0 0 0⟩ ∧
    checkUsageInterval utcTz atOverrideEntitlement (dateUTC 2024 6 1 0 0 0) ≠
      some ⟨dateUTC 2024 1 15 0 0 0, dateUTC 2024 1 16 0 0 0⟩ ∧
    resolveWindow utcTz (.calendar .day (some "UTC")) (dateUTC 2024 1 15 12 34 0) =
      ⟨dateUTC 2024 1 15 0 0 0, dateUTC 2024 1 16 0 0 0⟩ ∧
    checkUsageInterval utcTz ⟨some 10, none⟩ (dateUTC 2024 6 1 0 0 0) =
      some ⟨EPOCH, FAR_FUTURE⟩ := by
  refine ⟨rfl, by decide, by decide, by decide, rfl⟩

end CK
